import Mathlib

/-!
Verification of the `edp-rs` repository specification against its source.

The development embeds, as executable Lean definitions:

* the term data model and canonical term ordering of
  `crates/erltf/src/term.rs` and `crates/erltf/src/types.rs`
  (`OwnedTerm`, `impl Ord for OwnedTerm`, the numeric comparison helpers,
  the derived `PartialEq`);
* pid string formatting/parsing (`ExternalPid::from_string`,
  `impl Display for ExternalPid`);
* the node orchestrator state transitions of `crates/edp_node/src/node.rs`
  (`Node::start`, `Node::rpc_call_raw`, `Node::route_message`);
* the external term format codec, modelled from the specification's tag
  table (the crate files `encoder.rs`/`decoder.rs` are not part of the
  sources available here).

Rust strings and byte vectors are modelled as lists of naturals
(`List Nat`); machine integers are `Nat`/`Int`; IEEE-754 doubles are
modelled by their 64-bit pattern as a `Nat` together with explicit
value/ordering functions.
-/

set_option maxHeartbeats 2000000

namespace Erltf

/-- Rust `String` / `Arc<str>` / `Vec<u8>` contents, modelled as lists of
byte values. Rust's `Ord` on these types is lexicographic on bytes. -/
abbrev Str := List Nat

/-- `Sign` from `types.rs`. -/
inductive Sign where
  | Positive
  | Negative
deriving DecidableEq, Repr, BEq

/-- `Sign::is_negative` from `types.rs`. -/
def Sign.is_negative : Sign → Bool
  | .Negative => true
  | .Positive => false

/-- `Atom` from `types.rs`: an interned string; equality and order are by
string value (the `Arc<str>` interning has no observable effect on
equality or comparison). -/
structure Atom where
  name : Str
deriving DecidableEq, Repr

/-- `BigInt` from `types.rs`: sign plus little-endian magnitude bytes. -/
structure BigInt where
  sign : Sign
  digits : List Nat
deriving DecidableEq, Repr

/-- `ExternalPid` from `types.rs` (`id`, `serial`, `creation` are `u32`). -/
structure ExternalPid where
  node : Atom
  id : Nat
  serial : Nat
  creation : Nat
deriving DecidableEq, Repr

/-- `ExternalPort` from `types.rs` (`id` is `u64`, `creation` is `u32`). -/
structure ExternalPort where
  node : Atom
  id : Nat
  creation : Nat
deriving DecidableEq, Repr

/-- `ExternalReference` from `types.rs` (`ids` is a `Vec<u32>`). -/
structure ExternalReference where
  node : Atom
  creation : Nat
  ids : List Nat
deriving DecidableEq, Repr

/-- `ExternalFun` from `types.rs` (`arity` is a `u8`). -/
structure ExternalFun where
  module : Atom
  function : Atom
  arity : Nat
deriving DecidableEq, Repr

/-- Lexicographic comparison of byte/word lists: Rust's derived `Ord` for
slices and `Vec<T>` (element-wise, then by length). -/
def bytes_cmp : List Nat → List Nat → Ordering
  | [], [] => .eq
  | [], _ :: _ => .lt
  | _ :: _, [] => .gt
  | x :: xs, y :: ys => (compare x y).then (bytes_cmp xs ys)

/-! ### IEEE-754 binary64 model

A Rust `f64` is modelled by its 64-bit pattern (a `Nat`, read modulo
`2^64`). Sign, exponent and mantissa fields, the NaN test, and the real
value of a finite pattern are defined bit-exactly. Orderings on non-NaN
doubles compare the extended value line `ExtQ` (`-inf`, finite rationals,
`+inf`); `+0.0` and `-0.0` both have value `0`, so they compare equal as
in IEEE equality. -/

/-- A 64-bit `f64` pattern. -/
abbrev F64 := Nat

/-- Sign bit of an `f64` pattern. -/
def f64_sign (b : F64) : Bool := b / 2 ^ 63 % 2 = 1

/-- Biased exponent field of an `f64` pattern. -/
def f64_exp (b : F64) : Nat := b / 2 ^ 52 % 2 ^ 11

/-- Mantissa field of an `f64` pattern. -/
def f64_mant (b : F64) : Nat := b % 2 ^ 52

/-- `f64::is_nan`: exponent all ones and non-zero mantissa. -/
def f64_is_nan (b : F64) : Bool := f64_exp b == 2047 && f64_mant b != 0

/-- `f64::is_infinite`: exponent all ones and zero mantissa. -/
def f64_is_inf (b : F64) : Bool := f64_exp b == 2047 && f64_mant b == 0

/-- Real value of a finite `f64` pattern (normal and subnormal cases). -/
def f64_val (b : F64) : ℚ :=
  let e := f64_exp b
  let m := f64_mant b
  let mag : ℚ :=
    if e = 0 then (m : ℚ) * (2 : ℚ) ^ (-(1074 : ℤ))
    else ((2 ^ 52 + m : ℕ) : ℚ) * (2 : ℚ) ^ ((e : ℤ) - 1075)
  if f64_sign b then -mag else mag

/-- The extended value line used to compare non-NaN doubles. -/
inductive ExtQ where
  | ninf
  | fin (q : ℚ)
  | pinf
deriving DecidableEq

/-- Linear comparison on the extended value line. -/
def ExtQ.cmpE : ExtQ → ExtQ → Ordering
  | .ninf, .ninf => .eq
  | .ninf, _ => .lt
  | _, .ninf => .gt
  | .pinf, .pinf => .eq
  | _, .pinf => .lt
  | .pinf, _ => .gt
  | .fin a, .fin b => compare a b

/-- Whether an extended value is an infinity. -/
def ExtQ.isInf : ExtQ → Bool
  | .ninf => true
  | .pinf => true
  | .fin _ => false

/-- Negation on the extended value line. -/
def ExtQ.neg : ExtQ → ExtQ
  | .ninf => .pinf
  | .pinf => .ninf
  | .fin q => .fin (-q)

/-- Extended value of a non-NaN `f64` pattern. Callers only apply this
after the NaN checks that the Rust source performs (a `partial_cmp`
returning `None` is resolved by `unwrap_or` before values are compared);
the value produced for a NaN pattern is never consulted. -/
def f64_ext (b : F64) : ExtQ :=
  if f64_exp b = 2047 then (if f64_sign b then .ninf else .pinf)
  else .fin (f64_val b)

/-- Round-to-nearest, ties-to-even, of a natural number to 53 significant
bits: the value of the Rust primitive cast `n as f64` for magnitudes in
the `i64` range (where no overflow to infinity is possible). Naturals up
to `2^53` are exactly representable. -/
def round53 (n : Nat) : Nat :=
  if n ≤ 2 ^ 53 then n
  else
    let e := n.log2 - 52
    let q := n / 2 ^ e
    let r := n % 2 ^ e
    let q' :=
      if 2 * r < 2 ^ e then q
      else if 2 ^ e < 2 * r then q + 1
      else if q % 2 = 0 then q else q + 1
    q' * 2 ^ e

/-- The value of the Rust cast `i as f64` for an `i64` input (the cast
rounds to nearest, ties to even, and is sign-symmetric). -/
def i64_as_f64 (i : Int) : Int :=
  if i < 0 then -(round53 i.natAbs : Int) else (round53 i.natAbs : Int)

/-- `compare_int_float` from `term.rs`: NaN compares greater (so the
integer is `Less`); otherwise `i as f64` is compared with `f` by value. -/
def compare_int_float (i : Int) (f : F64) : Ordering :=
  if f64_is_nan f then .lt
  else ExtQ.cmpE (.fin (i64_as_f64 i : ℚ)) (f64_ext f)

/-- `compare_float_int` from `term.rs`. -/
def compare_float_int (f : F64) (i : Int) : Ordering :=
  (compare_int_float i f).swap

/-- Value of a little-endian digit list. -/
def le_digits_val : List Nat → Nat
  | [] => 0
  | d :: ds => d + 256 * le_digits_val ds

/-- `bigint_to_u64` from `term.rs`: accumulates the first 8 little-endian
digits (the source ors shifted bytes together; for byte digits the shifted
summands do not overlap, so this is the positional value). -/
def bigint_to_u64 (big : BigInt) : Nat :=
  le_digits_val (big.digits.take 8)

/-- `compare_int_bigint` from `term.rs`. For a negative `i64` the source
takes `i.wrapping_neg() as u64`, which equals the absolute value for every
negative `i64` including `i64::MIN`. -/
def compare_int_bigint (i : Int) (big : BigInt) : Ordering :=
  if big.digits = [] then compare i 0
  else if big.sign.is_negative then
    if 0 ≤ i then .gt
    else if 8 < big.digits.length then .gt
    else (compare i.natAbs (bigint_to_u64 big)).swap
  else
    if i < 0 then .lt
    else if 8 < big.digits.length then .lt
    else compare i.toNat (bigint_to_u64 big)

/-- `compare_bigint_int` from `term.rs`. -/
def compare_bigint_int (big : BigInt) (i : Int) : Ordering :=
  (compare_int_bigint i big).swap

/-- `compare_bigint` from `term.rs`: by sign, then digit-count, then
lexicographically on the digit vectors (reversed for two negatives). -/
def compare_bigint (a b : BigInt) : Ordering :=
  match a.sign, b.sign with
  | .Positive, .Negative => .gt
  | .Negative, .Positive => .lt
  | .Positive, .Positive =>
    (compare a.digits.length b.digits.length).then (bytes_cmp a.digits b.digits)
  | .Negative, .Negative =>
    ((compare a.digits.length b.digits.length).then (bytes_cmp a.digits b.digits)).swap

/-! #### Correctly rounded double arithmetic

`bigint_to_f64` in `term.rs` accumulates `result += byte * scale` and
`scale *= 256.0` in `f64` arithmetic. IEEE-754 requires each operation to
round its exact result to the nearest representable double (ties to even),
so the loop is embedded with a correct-rounding function on rationals.
None of the settled claims exercises these definitions; they are present
so that the comparison function is embedded in full. -/

/-- Largest `e : ℤ` with `2^e ≤ q`, for positive `q`. -/
def qlog2p (q : ℚ) : ℤ :=
  let e0 : ℤ := (Nat.log2 q.num.toNat : ℤ) - (Nat.log2 q.den : ℤ)
  if (2 : ℚ) ^ (e0 + 1) ≤ q then e0 + 1
  else if (2 : ℚ) ^ e0 ≤ q then e0
  else e0 - 1

/-- Round a rational to an integer, ties to even. -/
def rhe (q : ℚ) : ℤ :=
  let n := ⌊q⌋
  let r := q - n
  if r < 1 / 2 then n
  else if 1 / 2 < r then n + 1
  else if n % 2 = 0 then n else n + 1

/-- Round a rational to the nearest representable double value
(ties to even), overflowing to an infinity. -/
def roundF64q (q : ℚ) : ExtQ :=
  if q = 0 then .fin 0
  else
    let s := q < 0
    let aq := |q|
    let e := max (qlog2p aq) (-1022)
    let step : ℚ := (2 : ℚ) ^ (e - 52)
    let n := rhe (aq / step)
    let v := (n : ℚ) * step
    if (2 : ℚ) ^ (1024 : ℤ) ≤ v then (if s then .ninf else .pinf)
    else .fin (if s then -v else v)

/-- IEEE-754 `f64` multiplication on extended values. The `fin 0` results
for `0 * inf` stand in for NaN: the source only ever asks `is_infinite`
of such a product (NaN is not infinite, and neither is the stand-in)
before discarding it. -/
def f64_mul (x y : ExtQ) : ExtQ :=
  match x, y with
  | .fin a, .fin b => roundF64q (a * b)
  | .fin a, .pinf => if a = 0 then .fin 0 else if a < 0 then .ninf else .pinf
  | .fin a, .ninf => if a = 0 then .fin 0 else if a < 0 then .pinf else .ninf
  | .pinf, .fin b => if b = 0 then .fin 0 else if b < 0 then .ninf else .pinf
  | .ninf, .fin b => if b = 0 then .fin 0 else if b < 0 then .pinf else .ninf
  | .pinf, .pinf => .pinf
  | .pinf, .ninf => .ninf
  | .ninf, .pinf => .ninf
  | .ninf, .ninf => .pinf

/-- IEEE-754 `f64` addition on extended values (`inf + (-inf)` stands in
for NaN like in `f64_mul`; it is never produced on the paths taken). -/
def f64_add (x y : ExtQ) : ExtQ :=
  match x, y with
  | .fin a, .fin b => roundF64q (a + b)
  | .fin _, .pinf => .pinf
  | .fin _, .ninf => .ninf
  | .pinf, .fin _ => .pinf
  | .ninf, .fin _ => .ninf
  | .pinf, .pinf => .pinf
  | .ninf, .ninf => .ninf
  | .pinf, .ninf => .fin 0
  | .ninf, .pinf => .fin 0

/-- The accumulation loop of `bigint_to_f64` from `term.rs`; an `error`
result is the early return taken when the scale or contribution has
overflowed to an infinity. -/
def bigint_to_f64_go (neg : Bool) : List Nat → ExtQ → ExtQ → Except ExtQ ExtQ
  | [], result, _ => .ok result
  | d :: ds, result, scale =>
    let contribution := f64_mul (.fin (d : ℚ)) scale
    if contribution.isInf || scale.isInf then
      .error (if neg then .ninf else .pinf)
    else bigint_to_f64_go neg ds (f64_add result contribution) (f64_mul scale (.fin 256))

/-- `bigint_to_f64` from `term.rs`. -/
def bigint_to_f64 (big : BigInt) : ExtQ :=
  match bigint_to_f64_go big.sign.is_negative big.digits (.fin 0) (.fin 1) with
  | .error v => v
  | .ok result => if big.sign.is_negative then result.neg else result

/-- `compare_bigint_float` from `term.rs`. -/
def compare_bigint_float (big : BigInt) (f : F64) : Ordering :=
  if f64_is_nan f then .lt
  else ExtQ.cmpE (bigint_to_f64 big) (f64_ext f)

/-- `compare_float_bigint` from `term.rs`. -/
def compare_float_bigint (f : F64) (big : BigInt) : Ordering :=
  (compare_bigint_float big f).swap

/-- `OwnedTerm` from `term.rs`. The `InternalFun` payload struct of
`types.rs` is inlined into its constructor (`uniq` is the `[u8; 16]`
field). `Map` carries the iteration sequence of the Rust `BTreeMap`:
its pairs in strictly ascending key order. -/
inductive OwnedTerm where
  | Atom (a : Atom)
  | Integer (i : Int)
  | Float (f : F64)
  | Pid (p : ExternalPid)
  | Port (p : ExternalPort)
  | Reference (r : ExternalReference)
  | Binary (bytes : List Nat)
  | BitBinary (bytes : List Nat) (bits : Nat)
  | String (s : Str)
  | List (elements : List OwnedTerm)
  | ImproperList (elements : List OwnedTerm) (tail : OwnedTerm)
  | Map (entries : List (OwnedTerm × OwnedTerm))
  | Tuple (elements : List OwnedTerm)
  | BigInt (b : BigInt)
  | ExternalFun (f : ExternalFun)
  | InternalFun (module : Atom) (arity : Nat) (uniq : List Nat) (index : Nat)
      (num_free : Nat) (old_index : Nat) (old_uniq : Nat) (pid : ExternalPid)
      (free_vars : List OwnedTerm)
  | Nil

/-- The `type_order` closure inside `impl Ord for OwnedTerm` in `term.rs`. -/
def type_order : OwnedTerm → Nat
  | .Integer _ | .BigInt _ | .Float _ => 0
  | .Atom _ => 1
  | .Reference _ => 2
  | .ExternalFun _ | .InternalFun .. => 3
  | .Port _ => 4
  | .Pid _ => 5
  | .Tuple _ => 6
  | .Map _ => 7
  | .Nil | .List _ | .ImproperList .. => 8
  | .Binary _ | .BitBinary .. | .String _ => 9

/-- Derived `Ord` for `ExternalPid`: node name, id, serial, creation.
Used both for the `(Pid, Pid)` arm and the `InternalFun` pid field. -/
def pid_cmp (a b : ExternalPid) : Ordering :=
  (((bytes_cmp a.node.name b.node.name).then (compare a.id b.id)).then
    (compare a.serial b.serial)).then (compare a.creation b.creation)

mutual

/-- `impl Ord for OwnedTerm` (`term.rs`). The same-discriminant fast path
of the source returns directly for the `Integer`, `Atom`, `Binary`,
`String` and `Nil` same-variant pairs; every other pair is ordered by
`type_order` with ties broken by `cmp_same`. -/
def cmp (a b : OwnedTerm) : Ordering :=
  match a, b with
  | .Integer x, .Integer y => compare x y
  | .Atom x, .Atom y => bytes_cmp x.name y.name
  | .Binary x, .Binary y => bytes_cmp x y
  | .String x, .String y => bytes_cmp x y
  | .Nil, .Nil => .eq
  | a', b' =>
    match compare (type_order a') (type_order b') with
    | .eq => cmp_same a' b'
    | o => o
termination_by sizeOf a + sizeOf b + 1
decreasing_by all_goals (simp_wf <;> omega)

/-- The `Ordering::Equal` branch of `impl Ord for OwnedTerm`: pairs with
the same `type_order` class. The final catch-all returns `Equal`, as in
the source. -/
def cmp_same (a b : OwnedTerm) : Ordering :=
  match a, b with
  | .Integer x, .Integer y => compare x y
  | .Integer x, .BigInt y => compare_int_bigint x y
  | .BigInt x, .Integer y => compare_bigint_int x y
  | .BigInt x, .BigInt y => compare_bigint x y
  | .Integer x, .Float y => compare_int_float x y
  | .Float x, .Integer y => compare_float_int x y
  | .BigInt x, .Float y => compare_bigint_float x y
  | .Float x, .BigInt y => compare_float_bigint x y
  | .Float x, .Float y =>
    if f64_is_nan x && f64_is_nan y then .eq
    else if f64_is_nan x then .gt
    else if f64_is_nan y then .lt
    else ExtQ.cmpE (f64_ext x) (f64_ext y)
  | .Atom x, .Atom y => bytes_cmp x.name y.name
  | .Reference x, .Reference y =>
    ((bytes_cmp x.node.name y.node.name).then (compare x.creation y.creation)).then
      (bytes_cmp x.ids y.ids)
  | .ExternalFun x, .ExternalFun y =>
    ((bytes_cmp x.module.name y.module.name).then
      (bytes_cmp x.function.name y.function.name)).then (compare x.arity y.arity)
  | .InternalFun m1 _ u1 i1 _ oi1 ou1 p1 fv1, .InternalFun m2 _ u2 i2 _ oi2 ou2 p2 fv2 =>
    (((((bytes_cmp m1.name m2.name).then (compare oi1 oi2)).then
      (compare ou1 ou2)).then ((compare i1 i2).then (bytes_cmp u1 u2))).then
      (pid_cmp p1 p2)).then (compare_term_lists fv1 fv2)
  | .ExternalFun _, .InternalFun .. => .lt
  | .InternalFun .., .ExternalFun _ => .gt
  | .Port x, .Port y =>
    ((bytes_cmp x.node.name y.node.name).then (compare x.id y.id)).then
      (compare x.creation y.creation)
  | .Pid x, .Pid y => pid_cmp x y
  | .Tuple x, .Tuple y => (compare x.length y.length).then (cmp_zip x y)
  | .Map x, .Map y => (compare x.length y.length).then (cmp_pairs x y)
  | .Nil, .Nil => .eq
  | .List x, .List y => (cmp_zip x y).then (compare x.length y.length)
  | .List x, .Nil => if x.isEmpty then .eq else .gt
  | .Nil, .List y => if y.isEmpty then .eq else .lt
  | .ImproperList x tx, .ImproperList y ty =>
    (cmp_zip x y).then ((compare x.length y.length).then (cmp tx ty))
  | .Binary x, .Binary y => bytes_cmp x y
  | .String x, .String y => bytes_cmp x y
  | .Binary x, .String y => bytes_cmp x y
  | .String x, .Binary y => bytes_cmp x y
  | .BitBinary x bx, .BitBinary y b2 => (bytes_cmp x y).then (compare bx b2)
  | _, _ => .eq
termination_by sizeOf a + sizeOf b
decreasing_by all_goals (simp_wf <;> omega)

/-- The element-wise loops over `a.iter().zip(b.iter())` in the `Tuple`,
`List` and `ImproperList` arms: first non-equal element comparison, else
`Equal` at the end of the shorter list. -/
def cmp_zip : List OwnedTerm → List OwnedTerm → Ordering
  | x :: xs, y :: ys => (cmp x y).then (cmp_zip xs ys)
  | _, _ => .eq
termination_by a b => sizeOf a + sizeOf b
decreasing_by all_goals (simp_wf <;> omega)

/-- The pair-wise loop of the `(Map, Map)` arm: keys then values. -/
def cmp_pairs : List (OwnedTerm × OwnedTerm) → List (OwnedTerm × OwnedTerm) → Ordering
  | (k1, v1) :: r1, (k2, v2) :: r2 =>
    ((cmp k1 k2).then (cmp v1 v2)).then (cmp_pairs r1 r2)
  | _, _ => .eq
termination_by a b => sizeOf a + sizeOf b
decreasing_by all_goals (simp_wf <;> omega)

/-- `compare_term_lists` from `term.rs`: element-wise, then by length. -/
def compare_term_lists (a b : List OwnedTerm) : Ordering :=
  (cmp_zip a b).then (compare a.length b.length)
termination_by sizeOf a + sizeOf b + 1
decreasing_by all_goals (simp_wf <;> omega)

end

/-- Rust `f64` equality (`==`): false if either side is NaN, otherwise by
value (`+0.0 == -0.0`, `inf == inf`). -/
def f64_eq (x y : F64) : Bool :=
  if f64_is_nan x || f64_is_nan y then false
  else f64_ext x == f64_ext y

instance : BEq ExtQ := ⟨fun a b => decide (a = b)⟩

/-- Derived `PartialEq` for `ExternalPid`. -/
def pid_eq (a b : ExternalPid) : Bool :=
  a.node.name == b.node.name && a.id == b.id && a.serial == b.serial &&
    a.creation == b.creation

mutual

/-- The derived `PartialEq` for `OwnedTerm` (`#[derive(PartialEq)]` in
`term.rs`): same variant and field-wise equality, with the `f64` field of
`Float` compared by IEEE `==`. -/
def peq (a b : OwnedTerm) : Bool :=
  match a, b with
  | .Atom x, .Atom y => x.name == y.name
  | .Integer x, .Integer y => x == y
  | .Float x, .Float y => f64_eq x y
  | .Pid x, .Pid y => pid_eq x y
  | .Port x, .Port y =>
    x.node.name == y.node.name && x.id == y.id && x.creation == y.creation
  | .Reference x, .Reference y =>
    x.node.name == y.node.name && x.creation == y.creation && x.ids == y.ids
  | .Binary x, .Binary y => x == y
  | .BitBinary x bx, .BitBinary y b2 => x == y && bx == b2
  | .String x, .String y => x == y
  | .List x, .List y => peq_list x y
  | .ImproperList x tx, .ImproperList y ty => peq_list x y && peq tx ty
  | .Map x, .Map y => peq_pairs x y
  | .Tuple x, .Tuple y => peq_list x y
  | .BigInt x, .BigInt y => x.sign == y.sign && x.digits == y.digits
  | .ExternalFun x, .ExternalFun y =>
    x.module.name == y.module.name && x.function.name == y.function.name &&
      x.arity == y.arity
  | .InternalFun m1 ar1 u1 i1 nf1 oi1 ou1 p1 fv1,
    .InternalFun m2 ar2 u2 i2 nf2 oi2 ou2 p2 fv2 =>
    ar1 == ar2 && u1 == u2 && i1 == i2 && nf1 == nf2 && m1.name == m2.name &&
      oi1 == oi2 && ou1 == ou2 && pid_eq p1 p2 && peq_list fv1 fv2
  | .Nil, .Nil => true
  | _, _ => false
termination_by sizeOf a + sizeOf b + 1
decreasing_by all_goals (simp_wf <;> omega)

/-- `Vec<OwnedTerm>` equality: same length, element-wise `peq`. -/
def peq_list : List OwnedTerm → List OwnedTerm → Bool
  | [], [] => true
  | x :: xs, y :: ys => peq x y && peq_list xs ys
  | _, _ => false
termination_by a b => sizeOf a + sizeOf b
decreasing_by all_goals (simp_wf <;> omega)

/-- `BTreeMap` equality: same length, pair-wise `peq` in order. -/
def peq_pairs : List (OwnedTerm × OwnedTerm) → List (OwnedTerm × OwnedTerm) → Bool
  | [], [] => true
  | (k1, v1) :: r1, (k2, v2) :: r2 => peq k1 k2 && peq v1 v2 && peq_pairs r1 r2
  | _, _ => false
termination_by a b => sizeOf a + sizeOf b
decreasing_by all_goals (simp_wf <;> omega)

end

/-- The canonical type-class table stated by the specification:
numbers < atoms < references < funs < ports < pids < tuples < maps <
lists < binaries, with `Nil` in the list class, `String` and `BitBinary`
in the binary class, and `Integer`, `BigInt`, `Float` all in the number
class. Stated from the specification's words, to be compared with the
source's `type_order`. -/
def spec_class : OwnedTerm → Nat
  | .Integer _ | .BigInt _ | .Float _ => 0
  | .Atom _ => 1
  | .Reference _ => 2
  | .ExternalFun _ | .InternalFun .. => 3
  | .Port _ => 4
  | .Pid _ => 5
  | .Tuple _ => 6
  | .Map _ => 7
  | .Nil | .List _ | .ImproperList .. => 8
  | .Binary _ | .BitBinary .. | .String _ => 9

/-! ### Pid strings (`types.rs`)

`ExternalPid::from_string` and `impl Display for ExternalPid` work on Rust
`&str` values; these are modelled as `List Char`. The relevant characters
(`<`, `>`, `.`, decimal digits) are one UTF-8 byte each, so byte indexing
in the source corresponds to list indexing here. -/

/-- The character of a decimal digit. -/
def digit_char : Nat → Char
  | 0 => '0'
  | 1 => '1'
  | 2 => '2'
  | 3 => '3'
  | 4 => '4'
  | 5 => '5'
  | 6 => '6'
  | 7 => '7'
  | 8 => '8'
  | _ => '9'

/-- Decimal digit characters of a natural number (the output of Rust's
`Display` for unsigned integers). -/
def nat_digits (n : Nat) : List Char :=
  if n < 10 then [digit_char n]
  else nat_digits (n / 10) ++ [digit_char (n % 10)]
decreasing_by exact Nat.div_lt_self (by omega) (by omega)

/-- `format!("<{}.{}.{}>", id, serial, creation)`:
the `Display` implementation for `ExternalPid`. -/
def pid_display (p : ExternalPid) : List Char :=
  '<' :: (nat_digits p.id ++ '.' :: nat_digits p.serial ++ '.' ::
    nat_digits p.creation ++ ['>'])

/-- `str::trim`: strip whitespace from both ends. -/
def str_trim (s : List Char) : List Char :=
  ((s.dropWhile Char.isWhitespace).reverse.dropWhile Char.isWhitespace).reverse

/-- `str::split('.')` collected into a `Vec`: the list of `.`-separated
chunks (an empty input yields one empty chunk, as in Rust). -/
def split_dot : List Char → List (List Char)
  | [] => [[]]
  | c :: rest =>
    if c = '.' then [] :: split_dot rest
    else
      match split_dot rest with
      | g :: gs => (c :: g) :: gs
      | [] => [[c]]

/-- `str::parse::<u32>()`: an optional leading `+`, then one or more
decimal digits, rejecting values above `u32::MAX`. (Rust reports overflow
as soon as the accumulator would exceed the range; since the accumulated
value only grows, checking the final value is equivalent.) `strip_plus`
drops the optional sign. -/
def strip_plus : List Char → List Char
  | '+' :: rest => rest
  | s => s

def parse_u32 (s : List Char) : Option Nat :=
  let digits := strip_plus s
  if digits.isEmpty then none
  else if digits.all Char.isDigit then
    let v := digits.foldl (fun acc c => 10 * acc + (c.toNat - 48)) 0
    if v < 2 ^ 32 then some v else none
  else none

/-- `DecodeError::InvalidPidFormat` carriers of `from_string`; the message
strings are not modelled. -/
inductive PidParseError where
  | InvalidPidFormat
deriving DecidableEq, Repr

/-- `ExternalPid::from_string` from `types.rs`: trim, require `<...>`,
split the interior on `.` into exactly three parts, and parse each part
as a `u32`. -/
def from_string (node : Atom) (pid_str : List Char) : Except PidParseError ExternalPid :=
  let trimmed := str_trim pid_str
  if trimmed.head? = some '<' ∧ trimmed.getLast? = some '>' then
    let inner := (trimmed.drop 1).dropLast
    let parts := split_dot inner
    if h3 : parts.length = 3 then
      match parse_u32 parts[0], parse_u32 parts[1], parse_u32 parts[2] with
      | some id, some serial, some creation =>
        .ok (ExternalPid.mk node id serial creation)
      | _, _, _ => .error .InvalidPidFormat
    else .error .InvalidPidFormat
  else .error .InvalidPidFormat

end Erltf

namespace EdpNode

open Erltf

/-- ASCII view of a Rust `&str` as atom-name bytes (the node and atom
names exercised here are ASCII, where code points and UTF-8 bytes agree). -/
def chars_bytes (s : List Char) : List Nat := s.map Char.toNat

/-- `Error` from `edp_node/src/errors.rs`. Error payloads coming from the
collaborator crates and human-readable message prefixes are not modelled;
the `EpmdRegistration` payload carries the offending name or the
port-mapper failure text. -/
inductive Error where
  | Client
  | Encode
  | TermConversion
  | ProcessNotFound (p : ExternalPid)
  | NameNotRegistered (a : Atom)
  | NameAlreadyRegistered (a : Atom)
  | NodeNotConnected (s : List Char)
  | CallTimeout
  | MailboxClosed
  | SpawnFailed
  | InvalidMessage
  | NodeAlreadyStarted
  | NodeNotStarted
  | EpmdRegistration (msg : List Char)
  | RpcTimeout
  | RpcCancelled
deriving DecidableEq, Repr

/-- Modelled from the spec: typed mailbox messages of §4.5 (`Message` in
the `mailbox` module, which is not among the available sources):
`Regular{from, body}`, `Exit{from, reason}`,
`MonitorExit{monitored, reference, reason}`. -/
inductive Message where
  | Regular (from_pid : Option ExternalPid) (body : OwnedTerm)
  | Exit (from_pid : ExternalPid) (reason : OwnedTerm)
  | MonitorExit (monitored : ExternalPid) (reference : ExternalReference)
      (reason : OwnedTerm)

/-- Modelled from the spec: the decoded `ControlMessage` of §4.4
(`edp_client::control` is not among the available sources). Only the
fields read by `Node::route_message` are carried; every op-code the
router ignores is collapsed into `Other`. -/
inductive ControlMessage where
  | Send (to_pid : OwnedTerm)
  | RegSend (from_pid : OwnedTerm) (to_name : OwnedTerm)
  | Exit (from_pid : OwnedTerm) (to_pid : OwnedTerm) (reason : OwnedTerm)
  | MonitorPExit (from_proc : OwnedTerm) (to_pid : OwnedTerm)
      (reference : OwnedTerm) (reason : OwnedTerm)
  | Other

/-- Association-list lookup: first value stored under an equal key. -/
def map_lookup {K V : Type} [DecidableEq K] (k : K) : List (K × V) → Option V
  | [] => none
  | (k0, v0) :: rest => if k0 = k then some v0 else map_lookup k rest

/-- Map removal (`DashMap::remove`): afterwards no entry has the key. -/
def map_remove {K V : Type} [DecidableEq K] (k : K) (m : List (K × V)) : List (K × V) :=
  m.filter (fun p => p.1 ≠ k)

/-- Map insertion (`DashMap::insert`): replaces any entry with the key. -/
def map_insert {K V : Type} [DecidableEq K] (k : K) (v : V) (m : List (K × V)) : List (K × V) :=
  (k, v) :: map_remove k m

/-- Modelled from the spec: the §4.5 registry (`ProcessRegistry` of the
`registry` module, which is not among the available sources) as far as
the router consults it: `get` (pid → handle) and `whereis` (name → pid).
Process handles are opaque identifiers. -/
structure Registry where
  procs : List (ExternalPid × Nat)
  names : List (Atom × ExternalPid)

/-- Modelled from the spec: `registry.get(&pid)`. -/
def Registry.get (r : Registry) (p : ExternalPid) : Option Nat :=
  map_lookup p r.procs

/-- Modelled from the spec: `registry.whereis(&name)`. -/
def Registry.whereis (r : Registry) (a : Atom) : Option ExternalPid :=
  map_lookup a r.names

/-- `format!("{}.{}.{}", pid.id, pid.serial, pid.creation)`: the key of
the pending-RPC table, both when registering a waiter in `rpc_call_raw`
and when matching an inbound `Send` in `route_message`. -/
def pid_str (p : ExternalPid) : List Char :=
  nat_digits p.id ++ '.' :: nat_digits p.serial ++ '.' :: nat_digits p.creation

/-- A pending-RPC table: reply-pid key to one-shot sender (opaque id). -/
abbrev PendingRpcs := List (List Char × Nat)

/-- What one `route_message` call did: a delivery into a mailbox (by
process handle), a delivery into a pending RPC waiter, or nothing. -/
inductive RouteEffect where
  | mailbox (handle : Nat) (msg : Message)
  | rpc_waiter (waiter : Nat) (body : OwnedTerm)

/-- Result of `Node::route_message`: the delivery performed (if any) and
the pending-RPC table afterwards. -/
structure Routed where
  effect : Option RouteEffect
  pending : PendingRpcs

/-- `Node::route_message` from `node.rs`: route one decoded control
message plus optional payload. A `Send` to a registered pid goes to that
mailbox as `Regular`; a `Send` to an unknown pid whose `pid_str` keys a
pending RPC removes and satisfies that waiter; `RegSend` resolves the
name; `Exit`/`MonitorPExit` become typed mailbox messages; everything
else is ignored. -/
def route_message (registry : Registry) (pending : PendingRpcs)
    (control_msg : ControlMessage) (payload : Option OwnedTerm) : Routed :=
  match control_msg with
  | .Send to_pid =>
    match payload, to_pid with
    | some body, .Pid pid =>
      match registry.get pid with
      | some handle => ⟨some (.mailbox handle (.Regular none body)), pending⟩
      | none =>
        match map_lookup (pid_str pid) pending with
        | some sender =>
          ⟨some (.rpc_waiter sender body), map_remove (pid_str pid) pending⟩
        | none => ⟨none, pending⟩
    | _, _ => ⟨none, pending⟩
  | .RegSend _ to_name =>
    match payload, to_name with
    | some body, .Atom name =>
      match registry.whereis name with
      | some pid =>
        match registry.get pid with
        | some handle => ⟨some (.mailbox handle (.Regular none body)), pending⟩
        | none => ⟨none, pending⟩
      | none => ⟨none, pending⟩
    | _, _ => ⟨none, pending⟩
  | .Exit from_pid to_pid reason =>
    match from_pid, to_pid with
    | .Pid fp, .Pid tp =>
      match registry.get tp with
      | some handle => ⟨some (.mailbox handle (.Exit fp reason)), pending⟩
      | none => ⟨none, pending⟩
    | _, _ => ⟨none, pending⟩
  | .MonitorPExit from_proc to_pid reference reason =>
    match from_proc, to_pid, reference with
    | .Pid fp, .Pid tp, .Reference rv =>
      match registry.get tp with
      | some handle => ⟨some (.mailbox handle (.MonitorExit fp rv reason)), pending⟩
      | none => ⟨none, pending⟩
    | _, _, _ => ⟨none, pending⟩
  | .Other => ⟨none, pending⟩

/-- The `Node` struct of `node.rs`, with the fields the settled claims
read or write. The pid allocator state (`edp_client::PidAllocator` is not
among the available sources) is modelled from the spec: a 32-bit id
incremented to the 28-bit boundary, then the serial is bumped and the id
reset; creation is set at registration. Connections and one-shot senders
are opaque identifiers. -/
structure Node where
  name : List Char
  cookie : List Char
  creation : Nat
  alloc_id : Nat
  alloc_serial : Nat
  reference_counter : Nat
  registry : Registry
  connections : List (List Char × Nat)
  pending_rpcs : PendingRpcs
  started : Bool
  listen_port : Option Nat
  hidden : Bool
  next_tx : Nat

/-- Modelled from the spec: `PidAllocator::allocate` (§3, §4.5): returns
a pid `(node, id, serial, creation)` and advances `(id, serial)`, rolling
the id at the 28-bit boundary. -/
def pid_alloc (n : Node) : ExternalPid × Node :=
  (⟨⟨chars_bytes n.name⟩, n.alloc_id, n.alloc_serial, n.creation⟩,
    if n.alloc_id + 1 < 2 ^ 28 then { n with alloc_id := n.alloc_id + 1 }
    else { n with alloc_id := 0, alloc_serial := n.alloc_serial + 1 })

/-- `str::split_once(c)`: the pieces before and after the first
occurrence of `c`, or `none` when `c` does not occur. -/
def split_once_at (c : Char) : List Char → Option (List Char × List Char)
  | [] => none
  | x :: xs =>
    if x = c then some ([], xs)
    else
      match split_once_at c xs with
      | some (l, r) => some (x :: l, r)
      | none => none

/-- `Node::start` from `node.rs`. `started.swap(true)` first sets the
flag and returns the prior value; the name is then split at `'@'` and the
node registered with the port-mapper. The registration outcome (a call
into the `edp_client` crate) is a parameter: `ok creation` or a failure
message. No failure path clears the `started` flag. -/
def start (n : Node) (port : Nat) (epmd : Except (List Char) Nat) :
    Except Error Unit × Node :=
  if n.started then (.error .NodeAlreadyStarted, n)
  else
    let n := { n with started := true }
    match split_once_at '@' n.name with
    | none => (.error (.EpmdRegistration n.name), n)
    | some _ =>
      match epmd with
      | .error e => (.error (.EpmdRegistration e), n)
      | .ok creation =>
        (.ok (), { n with creation := creation, listen_port := some port })

/-- The frame `Connection::send_to_name` is asked to emit by
`rpc_call_raw`: sender pid, destination registered name, payload term. -/
structure RegSendOut where
  from_pid : ExternalPid
  to_name : Atom
  payload : OwnedTerm

/-- The successful synchronous prefix of `rpc_call_raw`: the allocated
reply pid and the frame handed to the connection. -/
structure RpcSendOk where
  reply_to_pid : ExternalPid
  sent : RegSendOut

/-- The `call_request` term built by `rpc_call_raw` in `node.rs`:
`{ReplyPid, {call, Module, Function, Args, user}}`. -/
def call_request (reply_to_pid : ExternalPid) (module function : List Char)
    (args : List OwnedTerm) : OwnedTerm :=
  .Tuple [.Pid reply_to_pid,
    .Tuple [.Atom ⟨chars_bytes "call".data⟩,
      .Atom ⟨chars_bytes module⟩,
      .Atom ⟨chars_bytes function⟩,
      .List args,
      .Atom ⟨chars_bytes "user".data⟩]]

/-- The synchronous prefix of `Node::rpc_call_raw` (`node.rs`), up to and
including the hand-off to the connection: allocate a reply pid, build the
call request, register the one-shot waiter under `pid_str`, then either
emit the `RegSend` to the atom `rex` over the connection, or (no
connection) remove the waiter and fail with `NodeNotConnected`. -/
def rpc_call_raw_send (n : Node) (remote_node module function : List Char)
    (args : List OwnedTerm) : Except Error RpcSendOk × Node :=
  let (reply_to_pid, n) := pid_alloc n
  let req := call_request reply_to_pid module function args
  let tx := n.next_tx
  let key := pid_str reply_to_pid
  let n := { n with pending_rpcs := map_insert key tx n.pending_rpcs,
                    next_tx := n.next_tx + 1 }
  match map_lookup remote_node n.connections with
  | some _ =>
    (.ok ⟨reply_to_pid, ⟨reply_to_pid, ⟨chars_bytes "rex".data⟩, req⟩⟩, n)
  | none =>
    (.error (.NodeNotConnected remote_node),
      { n with pending_rpcs := map_remove key n.pending_rpcs })

/-- The constant deadline of `rpc_call_raw`:
`tokio::time::timeout(Duration::from_secs(10), rx)`. -/
def rpc_timeout_secs : Nat := 10

/-- How the await on the one-shot receiver resolved: a reply arrived
within the deadline, the deadline elapsed, or the sender was dropped. -/
inductive RpcOutcome where
  | reply (t : OwnedTerm)
  | timeout
  | cancelled

/-- The completion of `Node::rpc_call_raw` after the await: only the
elapsed-deadline branch (`response.is_err()`) removes the waiter; the
errors then map to `RpcTimeout` / `RpcCancelled`. -/
def rpc_call_raw_finish (n : Node) (reply_to_pid : ExternalPid)
    (outcome : RpcOutcome) : Except Error OwnedTerm × Node :=
  match outcome with
  | .timeout =>
    (.error .RpcTimeout,
      { n with pending_rpcs := map_remove (pid_str reply_to_pid) n.pending_rpcs })
  | .cancelled => (.error .RpcCancelled, n)
  | .reply t => (.ok t, n)

end EdpNode

namespace Erltf

/-! ### External term format codec

Modelled from the spec: the binary codec of §4.1 (`encoder.rs` and
`decoder.rs` of the `erltf` crate are not among the available sources).
The encoder picks the narrowest integer and atom forms; the decoder
accepts every tag of the table plus the listed legacy variants. Per the
repository's own property tests, a legacy `String` payload (tag 107)
decodes to a `Binary`. The legacy text float form (tag 99) and the
atom-cache-ref tag (82, valid only inside a distribution header frame)
are not modelled. `InternalFun` has no row in the table and is an encoder
error. -/

/-- Write `n` as `k` big-endian bytes (most significant first). -/
def writeBE : Nat → Nat → List Nat
  | 0, _ => []
  | k + 1, n => n / 256 ^ k :: writeBE k (n % 256 ^ k)

/-- Read `k` big-endian bytes. -/
def readBE : Nat → List Nat → Option (Nat × List Nat)
  | 0, bs => some (0, bs)
  | k + 1, [] => none
  | k + 1, b :: rest => (readBE k rest).map (fun p => (b * 256 ^ k + p.1, p.2))

/-- Take exactly `n` leading bytes. -/
def takeBytes (n : Nat) (bs : List Nat) : Option (List Nat × List Nat) :=
  if n ≤ bs.length then some (bs.take n, bs.drop n) else none

/-- Little-endian base-256 digits of a natural (empty for zero, no
trailing zero digit otherwise). -/
def nat_le_digits (n : Nat) : List Nat :=
  if n = 0 then [] else n % 256 :: nat_le_digits (n / 256)
decreasing_by exact Nat.div_lt_self (Nat.pos_of_ne_zero (by assumption)) (by omega)

/-- The sign byte of the big-integer encodings: 0 positive, 1 negative. -/
def sign_byte : Sign → Nat
  | .Positive => 0
  | .Negative => 1

/-- Modelled from the spec: encode an atom without a version byte, in the
narrowest form (tag 119 with a 1-byte length up to 255 bytes, tag 118
with a 2-byte length up to 65535, longer is an encoder error). Atom
names are byte lists; UTF-8 validity is not modelled. -/
def enc_atom (a : Atom) : Option (List Nat) :=
  if a.name.length ≤ 255 then some (119 :: a.name.length :: a.name)
  else if a.name.length ≤ 65535 then some (118 :: writeBE 2 a.name.length ++ a.name)
  else none

/-- Concatenation of 4-byte big-endian words (reference id words). -/
def write_ids : List Nat → List Nat
  | [] => []
  | i :: is_ => writeBE 4 i ++ write_ids is_

mutual

/-- Modelled from the spec: encode one term (no version byte) following
the §4.1 tag table, choosing the narrowest integer form (tag 97 for
0..255, tag 98 for the `i32` range, else the big encodings). `none` is
an encoder error (oversized atom/string, arity above 255, a length field
that does not fit its width, or an `InternalFun`). -/
def encodeT (t : OwnedTerm) : Option (List Nat) :=
  match t with
  | .Integer i =>
    if 0 ≤ i ∧ i ≤ 255 then some [97, i.toNat]
    else if -(2 ^ 31) ≤ i ∧ i < 2 ^ 31 then some (98 :: writeBE 4 (i % 2 ^ 32).toNat)
    else
      let ds := nat_le_digits i.natAbs
      some (110 :: ds.length :: (if i < 0 then 1 else 0) :: ds)
  | .BigInt b =>
    if b.digits.length ≤ 255 then
      some (110 :: b.digits.length :: sign_byte b.sign :: b.digits)
    else if b.digits.length < 2 ^ 32 then
      some (111 :: writeBE 4 b.digits.length ++ sign_byte b.sign :: b.digits)
    else none
  | .Float f => some (70 :: writeBE 8 f)
  | .Atom a => enc_atom a
  | .Tuple es =>
    if es.length ≤ 255 then (enc_seq es).map (fun body => 104 :: es.length :: body)
    else if es.length < 2 ^ 32 then
      (enc_seq es).map (fun body => 105 :: writeBE 4 es.length ++ body)
    else none
  | .Map m =>
    if m.length < 2 ^ 32 then
      (enc_pairs m).map (fun body => 116 :: writeBE 4 m.length ++ body)
    else none
  | .Nil => some [106]
  | .String s =>
    if s.length ≤ 65535 then some (107 :: writeBE 2 s.length ++ s) else none
  | .List es =>
    if es.length < 2 ^ 32 then
      (enc_seq es).map (fun body => 108 :: writeBE 4 es.length ++ body ++ [106])
    else none
  | .ImproperList es tl =>
    if es.length < 2 ^ 32 then
      match enc_seq es, encodeT tl with
      | some body, some tb => some (108 :: writeBE 4 es.length ++ body ++ tb)
      | _, _ => none
    else none
  | .Binary bs =>
    if bs.length < 2 ^ 32 then some (109 :: writeBE 4 bs.length ++ bs) else none
  | .BitBinary bs bits =>
    if bs.length < 2 ^ 32 then some (77 :: writeBE 4 bs.length ++ bits :: bs)
    else none
  | .Pid p =>
    (enc_atom p.node).map (fun nb =>
      88 :: nb ++ writeBE 4 p.id ++ writeBE 4 p.serial ++ writeBE 4 p.creation)
  | .Port p =>
    (enc_atom p.node).map (fun nb => 89 :: nb ++ writeBE 8 p.id ++ writeBE 4 p.creation)
  | .Reference r =>
    if r.ids.length < 2 ^ 16 then
      (enc_atom r.node).map (fun nb =>
        90 :: writeBE 2 r.ids.length ++ nb ++ writeBE 4 r.creation ++ write_ids r.ids)
    else none
  | .ExternalFun f =>
    match enc_atom f.module, enc_atom f.function with
    | some mb, some fb =>
      if f.arity ≤ 255 then some (113 :: mb ++ fb ++ [97, f.arity]) else none
    | _, _ => none
  | .InternalFun .. => none
termination_by sizeOf t
decreasing_by all_goals (simp_wf <;> omega)

/-- Encode a sequence of terms back to back. -/
def enc_seq : List OwnedTerm → Option (List Nat)
  | [] => some []
  | t :: ts =>
    match encodeT t, enc_seq ts with
    | some b, some bs => some (b ++ bs)
    | _, _ => none
termination_by ts => sizeOf ts
decreasing_by all_goals (simp_wf <;> omega)

/-- Encode map pairs back to back (key, then value). -/
def enc_pairs : List (OwnedTerm × OwnedTerm) → Option (List Nat)
  | [] => some []
  | (k, v) :: ps =>
    match encodeT k, encodeT v, enc_pairs ps with
    | some kb, some vb, some bs => some (kb ++ vb ++ bs)
    | _, _, _ => none
termination_by ps => sizeOf ps
decreasing_by all_goals (simp_wf <;> omega)

end

/-- Modelled from the spec: top-level encode, prefixing the version
byte 131. -/
def encode (t : OwnedTerm) : Option (List Nat) :=
  (encodeT t).map (131 :: ·)

/-- Sign-extend a 32-bit two's complement value. -/
def sint32 (v : Nat) : Int :=
  if v < 2 ^ 31 then (v : Int) else (v : Int) - 2 ^ 32

/-- Modelled from the spec: decode a nested atom (new tags 119/118 plus
the legacy plain atom tags 100/115, which carry the same payload shapes). -/
def dec_atom : List Nat → Option (Atom × List Nat)
  | 119 :: len :: rest =>
    (takeBytes len rest).map (fun p => (⟨p.1⟩, p.2))
  | 115 :: len :: rest =>
    (takeBytes len rest).map (fun p => (⟨p.1⟩, p.2))
  | 118 :: rest =>
    match readBE 2 rest with
    | some (len, r1) => (takeBytes len r1).map (fun p => (⟨p.1⟩, p.2))
    | none => none
  | 100 :: rest =>
    match readBE 2 rest with
    | some (len, r1) => (takeBytes len r1).map (fun p => (⟨p.1⟩, p.2))
    | none => none
  | _ => none

/-- Modelled from the spec: the abstract term of a decoded big integer
(invariant (b) canonicalization): a value in the `i64` range becomes an
`Integer`, anything else keeps its sign and digit list as a `BigInt`.
A sign byte other than 0/1 is a decode error. -/
def big_term (sg : Nat) (digits : List Nat) : Option OwnedTerm :=
  match sg with
  | 0 =>
    let v := le_digits_val digits
    if v ≤ 2 ^ 63 - 1 then some (.Integer v) else some (.BigInt ⟨.Positive, digits⟩)
  | 1 =>
    let v := le_digits_val digits
    if v ≤ 2 ^ 63 then some (.Integer (-(v : Int))) else some (.BigInt ⟨.Negative, digits⟩)
  | _ => none

/-- `BTreeMap::insert` under the term order `cmp`: on an equal key the
stored key is kept and only the value replaced. -/
def map_insert_term (k v : OwnedTerm) :
    List (OwnedTerm × OwnedTerm) → List (OwnedTerm × OwnedTerm)
  | [] => [(k, v)]
  | (k0, v0) :: rest =>
    match cmp k k0 with
    | .lt => (k, v) :: (k0, v0) :: rest
    | .eq => (k0, v) :: rest
    | .gt => (k0, v0) :: map_insert_term k v rest

/-- Build a map term from decoded pairs by successive insertion (the
last-written value wins for duplicate keys). -/
def map_of_pairs (ps : List (OwnedTerm × OwnedTerm)) : List (OwnedTerm × OwnedTerm) :=
  ps.foldl (fun m p => map_insert_term p.1 p.2 m) []

/-- Read `n` consecutive 4-byte big-endian words. -/
def read_ids : Nat → List Nat → Option (List Nat × List Nat)
  | 0, bs => some ([], bs)
  | n + 1, bs =>
    match readBE 4 bs with
    | some (i, r1) => (read_ids n r1).map (fun p => (i :: p.1, p.2))
    | none => none

mutual

/-- Modelled from the spec: decode one term. `fuel` bounds the nesting
depth; every nested term consumes at least one byte, so one more than
the byte count of the input is always sufficient fuel. The tag is
dispatched by `dec_tag`. -/
def decodeT : Nat → List Nat → Option (OwnedTerm × List Nat)
  | 0, _ => none
  | _ + 1, [] => none
  | fuel + 1, tag :: rest => dec_tag fuel tag rest
termination_by fuel _ => (fuel, 1)

/-- Modelled from the spec: decode the payload of one tag. Accepts every
tag of the §4.1 table (except the header-only cache-ref 82 and the
unmodelled legacy text float 99) plus the legacy pid (103), port (102),
reference (101/114) and plain atom (100/115) tags, which map onto the
same abstract terms. -/
def dec_tag (fuel : Nat) (tag : Nat) (rest : List Nat) :
    Option (OwnedTerm × List Nat) :=
  if tag = 97 then
    match rest with
    | b :: r => some (.Integer b, r)
    | [] => none
  else if tag = 98 then
    (readBE 4 rest).map (fun p => (.Integer (sint32 p.1), p.2))
  else if tag = 70 then
    (readBE 8 rest).map (fun p => (.Float p.1, p.2))
  else if tag = 119 ∨ tag = 115 then
    match rest with
    | len :: r1 => (takeBytes len r1).map (fun p => (.Atom ⟨p.1⟩, p.2))
    | [] => none
  else if tag = 118 ∨ tag = 100 then
    match readBE 2 rest with
    | some (len, r1) => (takeBytes len r1).map (fun p => (.Atom ⟨p.1⟩, p.2))
    | none => none
  else if tag = 104 then
    match rest with
    | n :: r1 => (dec_seq fuel n r1).map (fun p => (.Tuple p.1, p.2))
    | [] => none
  else if tag = 105 then
    match readBE 4 rest with
    | some (n, r1) => (dec_seq fuel n r1).map (fun p => (.Tuple p.1, p.2))
    | none => none
  else if tag = 116 then
    match readBE 4 rest with
    | some (n, r1) =>
      (dec_pairs fuel n r1).map (fun p => (.Map (map_of_pairs p.1), p.2))
    | none => none
  else if tag = 106 then some (.Nil, rest)
  else if tag = 107 then
    match readBE 2 rest with
    | some (len, r1) => (takeBytes len r1).map (fun p => (.Binary p.1, p.2))
    | none => none
  else if tag = 108 then
    match readBE 4 rest with
    | some (n, r1) =>
      match dec_seq fuel n r1 with
      | some (es, r2) =>
        match decodeT fuel r2 with
        | some (.Nil, r3) => some (.List es, r3)
        | some (tl, r3) => some (.ImproperList es tl, r3)
        | none => none
      | none => none
    | none => none
  else if tag = 109 then
    match readBE 4 rest with
    | some (len, r1) => (takeBytes len r1).map (fun p => (.Binary p.1, p.2))
    | none => none
  else if tag = 77 then
    match readBE 4 rest with
    | some (len, r1) =>
      match r1 with
      | bits :: r2 => (takeBytes len r2).map (fun p => (.BitBinary p.1 bits, p.2))
      | [] => none
    | none => none
  else if tag = 110 then
    match rest with
    | cnt :: sg :: r0 =>
      match takeBytes cnt r0 with
      | some (digits, r1) => (big_term sg digits).map (fun t => (t, r1))
      | none => none
    | _ => none
  else if tag = 111 then
    match readBE 4 rest with
    | some (cnt, r1) =>
      match r1 with
      | sg :: r2 =>
        match takeBytes cnt r2 with
        | some (digits, r3) => (big_term sg digits).map (fun t => (t, r3))
        | none => none
      | [] => none
    | none => none
  else if tag = 88 then
    match dec_atom rest with
    | some (node, r1) =>
      match readBE 4 r1 with
      | some (id, r2) =>
        match readBE 4 r2 with
        | some (serial, r3) =>
          (readBE 4 r3).map (fun p => (.Pid ⟨node, id, serial, p.1⟩, p.2))
        | none => none
      | none => none
    | none => none
  else if tag = 103 then
    match dec_atom rest with
    | some (node, r1) =>
      match readBE 4 r1 with
      | some (id, r2) =>
        match readBE 4 r2 with
        | some (serial, r3) =>
          match r3 with
          | creation :: r4 => some (.Pid ⟨node, id, serial, creation⟩, r4)
          | [] => none
        | none => none
      | none => none
    | none => none
  else if tag = 89 then
    match dec_atom rest with
    | some (node, r1) =>
      match readBE 8 r1 with
      | some (id, r2) =>
        (readBE 4 r2).map (fun p => (.Port ⟨node, id, p.1⟩, p.2))
      | none => none
    | none => none
  else if tag = 102 then
    match dec_atom rest with
    | some (node, r1) =>
      match readBE 4 r1 with
      | some (id, r2) =>
        match r2 with
        | creation :: r3 => some (.Port ⟨node, id, creation⟩, r3)
        | [] => none
      | none => none
    | none => none
  else if tag = 90 then
    match readBE 2 rest with
    | some (cnt, r1) =>
      match dec_atom r1 with
      | some (node, r2) =>
        match readBE 4 r2 with
        | some (creation, r3) =>
          (read_ids cnt r3).map (fun p => (.Reference ⟨node, creation, p.1⟩, p.2))
        | none => none
      | none => none
    | none => none
  else if tag = 101 then
    match dec_atom rest with
    | some (node, r1) =>
      match readBE 4 r1 with
      | some (id, r2) =>
        match r2 with
        | creation :: r3 => some (.Reference ⟨node, creation, [id]⟩, r3)
        | [] => none
      | none => none
    | none => none
  else if tag = 114 then
    match readBE 2 rest with
    | some (cnt, r1) =>
      match dec_atom r1 with
      | some (node, r2) =>
        match r2 with
        | creation :: r3 =>
          (read_ids cnt r3).map (fun p => (.Reference ⟨node, creation, p.1⟩, p.2))
        | [] => none
      | none => none
    | none => none
  else if tag = 113 then
    match dec_atom rest with
    | some (module, r1) =>
      match dec_atom r1 with
      | some (function, r2) =>
        match r2 with
        | 97 :: arity :: r3 => some (.ExternalFun ⟨module, function, arity⟩, r3)
        | _ => none
      | none => none
    | none => none
  else none
termination_by (fuel + 1, 0)

/-- Decode `n` consecutive terms. -/
def dec_seq : Nat → Nat → List Nat → Option (List OwnedTerm × List Nat)
  | _, 0, bs => some ([], bs)
  | fuel, n + 1, bs =>
    match decodeT fuel bs with
    | some (t, r1) => (dec_seq fuel n r1).map (fun p => (t :: p.1, p.2))
    | none => none
termination_by fuel n _ => (fuel, n + 2)

/-- Decode `n` consecutive key/value pairs. -/
def dec_pairs : Nat → Nat → List Nat → Option (List (OwnedTerm × OwnedTerm) × List Nat)
  | _, 0, bs => some ([], bs)
  | fuel, n + 1, bs =>
    match decodeT fuel bs with
    | some (k, r1) =>
      match decodeT fuel r1 with
      | some (v, r2) => (dec_pairs fuel n r2).map (fun p => ((k, v) :: p.1, p.2))
      | none => none
    | none => none
termination_by fuel n _ => (fuel, n + 2)

end

/-- Modelled from the spec: top-level decode, requiring the version
byte 131 (trailing bytes are ignored; one more than the input length is
always enough fuel because every nested term consumes at least one
byte). -/
def decode (bs : List Nat) : Option OwnedTerm :=
  match bs with
  | 131 :: rest => (decodeT (rest.length + 1) rest).map (·.1)
  | _ => none

end Erltf


namespace Erltf

/-- Strict pairwise ascent of map keys under `cmp`, stated in both
orientations (for the Rust total order the two agree; stating both avoids
relying on antisymmetry of the embedded comparison). This is the
`BTreeMap` representation invariant carried by `OwnedTerm.Map`. -/
def keys_ascend : List (OwnedTerm × OwnedTerm) → Bool
  | [] => true
  | (k, _) :: rest =>
    rest.all (fun p => decide (cmp k p.1 = .lt) && decide (cmp p.1 k = .gt)) &&
      keys_ascend rest

mutual

/-- The terms for which the modelled codec round-trips exactly: the
Rust-representation bounds on numeric fields (`u32`/`u64` widths, `i64`
integers, 64-bit float patterns), the `BTreeMap` key invariant, no
legacy-only `String`, no `InternalFun` (absent from the §4.1 tag table),
`BigInt` values outside the `i64` range (values inside it decode as
`Integer`), and non-`Nil` improper tails (a `Nil` tail decodes as a
proper `List`). -/
def wf_term : OwnedTerm → Bool
  | .Atom _ => true
  | .Integer i => decide (-(2 ^ 63) ≤ i) && decide (i < 2 ^ 63)
  | .Float f => decide (f < 2 ^ 64)
  | .Pid p =>
    decide (p.id < 2 ^ 32) && decide (p.serial < 2 ^ 32) &&
      decide (p.creation < 2 ^ 32)
  | .Port p => decide (p.id < 2 ^ 64) && decide (p.creation < 2 ^ 32)
  | .Reference r =>
    decide (r.creation < 2 ^ 32) && r.ids.all (fun i => decide (i < 2 ^ 32))
  | .Binary _ => true
  | .BitBinary _ _ => true
  | .String _ => false
  | .List es => wf_list es
  | .ImproperList es tl => wf_list es && wf_term tl && !(tl matches .Nil)
  | .Map m => wf_pairs m && keys_ascend m
  | .Tuple es => wf_list es
  | .BigInt b =>
    match b.sign with
    | .Positive => decide (2 ^ 63 ≤ le_digits_val b.digits)
    | .Negative => decide (2 ^ 63 < le_digits_val b.digits)
  | .ExternalFun _ => true
  | .InternalFun .. => false
  | .Nil => true
termination_by t => sizeOf t
decreasing_by all_goals (simp_wf <;> omega)

/-- All list elements well-formed. -/
def wf_list : List OwnedTerm → Bool
  | [] => true
  | t :: ts => wf_term t && wf_list ts
termination_by ts => sizeOf ts
decreasing_by all_goals (simp_wf <;> omega)

/-- All map keys and values well-formed. -/
def wf_pairs : List (OwnedTerm × OwnedTerm) → Bool
  | [] => true
  | (k, v) :: ps => wf_term k && wf_term v && wf_pairs ps
termination_by ps => sizeOf ps
decreasing_by all_goals (simp_wf <;> omega)

end

end Erltf

/-! ## Theorems -/

namespace Erltf

/-- The source's `type_order` realizes the class table stated by the
specification. -/
theorem type_order_eq_spec_class (t : OwnedTerm) : type_order t = spec_class t := by
  cases t <;> rfl

/-- Claim C2: for every two terms of different canonical type classes,
`OwnedTerm::cmp` orders them by the class order
numbers < atoms < references < funs < ports < pids < tuples < maps <
lists < binaries (with `Nil` in the list class, `String` and `BitBinary`
in the binary class, and `Integer`, `BigInt`, `Float` in the number
class). -/
theorem claim_C2_cross_class_order (t1 t2 : OwnedTerm)
    (h : spec_class t1 ≠ spec_class t2) :
    cmp t1 t2 = compare (spec_class t1) (spec_class t2) := by
  cases t1 <;> cases t2 <;>
    first
      | exact absurd rfl h
      | (rw [cmp.eq_def]; rfl)

/-- Witness for C2 at a concrete pair: an integer (class 0) against an
atom (class 1). -/
theorem claim_C2_witness :
    spec_class (.Integer 0) ≠ spec_class (.Atom ⟨[]⟩) ∧
      cmp (.Integer 0) (.Atom ⟨[]⟩) =
        compare (spec_class (.Integer 0)) (spec_class (.Atom ⟨[]⟩)) :=
  ⟨by decide, claim_C2_cross_class_order _ _ (by decide)⟩

/-- Claim C4: in the canonical order a `Float` NaN compares greater than
every non-NaN `Float` (in both argument orders) and two NaNs compare
equal. -/
theorem claim_C4_nan_order (x y : F64) :
    (f64_is_nan x = true → f64_is_nan y = false →
      cmp (.Float x) (.Float y) = .gt ∧ cmp (.Float y) (.Float x) = .lt) ∧
    (f64_is_nan x = true → f64_is_nan y = true →
      cmp (.Float x) (.Float y) = .eq) := by
  refine ⟨fun h1 h2 => ⟨?_, ?_⟩, fun h1 h2 => ?_⟩ <;>
    (rw [cmp.eq_def]; simp [cmp_same.eq_def, type_order, h1, h2]; decide)

/-- Witness for C4: the quiet-NaN pattern against `+0.0` and against a
second NaN pattern. -/
theorem claim_C4_witness :
    cmp (.Float (2047 * 2 ^ 52 + 1)) (.Float 0) = .gt ∧
      cmp (.Float 0) (.Float (2047 * 2 ^ 52 + 1)) = .lt ∧
      cmp (.Float (2047 * 2 ^ 52 + 1)) (.Float (2047 * 2 ^ 52 + 2)) = .eq :=
  ⟨((claim_C4_nan_order _ _).1 (by decide) (by decide)).1,
    ((claim_C4_nan_order _ _).1 (by decide) (by decide)).2,
    (claim_C4_nan_order _ _).2 (by decide) (by decide)⟩

/-- Counterexample to claim C5 as stated: `cmp` considers `Nil` and the
empty `List` variant equal, but the derived `PartialEq` distinguishes the
two variants, so equality does not agree with the comparison on that
pair. -/
theorem claim_C5_counterexample :
    cmp .Nil (.List []) = .eq ∧ peq .Nil (.List []) = false := by
  constructor
  · simp [cmp.eq_def, cmp_same.eq_def]; decide
  · rw [peq.eq_def]

/-- Claim C5 (amended): `cmp(Nil, List([]))` and `cmp(List([]), Nil)`
both return `Equal`, two empty lists compare equal and are equal, and
each of `Nil` and `List([])` is equal to itself — but the derived
equality distinguishes `Nil` from `List([])`. -/
theorem claim_C5_amended :
    cmp .Nil (.List []) = .eq ∧ cmp (.List []) .Nil = .eq ∧
      cmp (.List []) (.List []) = .eq ∧ peq (.List []) (.List []) = true ∧
      peq .Nil .Nil = true ∧ peq .Nil (.List []) = false := by
  refine ⟨?_, ?_, ?_, ?_, ?_, ?_⟩
  · simp [cmp.eq_def, cmp_same.eq_def]; decide
  · simp [cmp.eq_def, cmp_same.eq_def]; decide
  · simp [cmp.eq_def, cmp_same.eq_def, cmp_zip.eq_def] <;> decide
  · simp [peq.eq_def, peq_list.eq_def]
  · rw [peq.eq_def]
  · rw [peq.eq_def]

end Erltf

namespace Erltf

theorem compare_nat_zero : compare (0 : Nat) (0 : Nat) = Ordering.eq := by decide

/-- `cmp` on an integer against a float dispatches to `compare_int_float`. -/
theorem cmp_int_float (i : ℤ) (f : F64) :
    cmp (.Integer i) (.Float f) = compare_int_float i f := by
  rw [cmp.eq_def]
  simp [type_order, compare_nat_zero, cmp_same.eq_def]

/-- `cmp` on a float against an integer is the reversed comparison. -/
theorem cmp_float_int (f : F64) (i : ℤ) :
    cmp (.Float f) (.Integer i) = (compare_int_float i f).swap := by
  rw [cmp.eq_def]
  simp [type_order, compare_nat_zero, cmp_same.eq_def, compare_float_int]

/-- Naturals up to `2^53` convert to `f64` exactly. -/
theorem round53_small (n : Nat) (h : n ≤ 2 ^ 53) : round53 n = n := by
  unfold round53
  rw [if_pos h]

/-- `i64` values of magnitude up to `2^53` convert to `f64` exactly. -/
theorem i64_as_f64_small (i : ℤ) (h : i.natAbs ≤ 2 ^ 53) : i64_as_f64 i = i := by
  simp only [i64_as_f64, round53_small _ h]
  split <;> omega

/-- A pattern that is neither NaN nor an infinity has a non-maximal
exponent field. -/
theorem f64_exp_ne (f : F64) (hn : f64_is_nan f = false) (hf : f64_is_inf f = false) :
    ¬ f64_exp f = 2047 := by
  simp [f64_is_nan, f64_is_inf] at hn hf
  intro h
  rcases Nat.eq_zero_or_pos (f64_mant f) with h0 | h0
  · exact absurd (hf h) (by omega)
  · exact absurd (hn h) (by omega)

theorem nat_log2_pow53_succ : Nat.log2 (2 ^ 53 + 1) = 53 := by
  rw [Nat.log2_eq_log_two]
  exact Nat.log_eq_of_pow_le_of_lt_pow (by norm_num) (by norm_num)

/-- `2^53 + 1` rounds down to `2^53` when cast to `f64` (tie to even). -/
theorem round53_pow53_succ : round53 (2 ^ 53 + 1) = 2 ^ 53 := by
  rw [round53, if_neg (by norm_num)]
  simp only [nat_log2_pow53_succ]
  norm_num

/-- Counterexample to claim C3 as stated: at `i = 2^53 + 1` and
`f = 2^53` (pattern `1076 * 2^52`), the source compares via the lossy
cast `i as f64` and returns `Equal`, although mathematically
`i > 2^53 = value(f)`. -/
theorem claim_C3_counterexample :
    cmp (.Integer (2 ^ 53 + 1)) (.Float (1076 * 2 ^ 52)) = .eq ∧
      f64_is_nan (1076 * 2 ^ 52) = false ∧
      f64_val (1076 * 2 ^ 52) < ((2 ^ 53 + 1 : ℤ) : ℚ) := by
  have hv : f64_val (1076 * 2 ^ 52) = ((2 : ℚ) ^ 53 : ℚ) := by
    simp [f64_val, f64_exp, f64_mant, f64_sign]
    norm_num
  have hi : i64_as_f64 (2 ^ 53 + 1) = 2 ^ 53 := by
    have h1 : ((2 : ℤ) ^ 53 + 1).natAbs = 2 ^ 53 + 1 := by decide
    simp only [i64_as_f64, if_neg (by omega : ¬ (2 : ℤ) ^ 53 + 1 < 0), h1,
      round53_pow53_succ]
    norm_num
  refine ⟨?_, by decide, ?_⟩
  · rw [cmp_int_float, compare_int_float, if_neg (by decide), hi]
    rw [f64_ext, if_neg (by decide), hv]
    rw [ExtQ.cmpE]
    rw [compare_eq_iff_eq]
    norm_num
  · rw [hv]; norm_num

/-- Claim C3 (amended): for every `i64` of magnitude at most `2^53` (where
the `i as f64` cast is exact) and every finite non-NaN float, the
`Integer`/`Float` comparison agrees with the mathematical comparison of
the integer with the float's real value, and the `Float`/`Integer`
direction is its reverse. -/
theorem claim_C3_amended (i : ℤ) (f : F64) (hi : i.natAbs ≤ 2 ^ 53)
    (hn : f64_is_nan f = false) (hf : f64_is_inf f = false) :
    cmp (.Integer i) (.Float f) = compare (i : ℚ) (f64_val f) ∧
      cmp (.Float f) (.Integer i) = (compare (i : ℚ) (f64_val f)).swap := by
  have hexp := f64_exp_ne f hn hf
  have h1 : compare_int_float i f = compare (i : ℚ) (f64_val f) := by
    rw [compare_int_float, if_neg (by simp [hn]), f64_ext, if_neg hexp, ExtQ.cmpE,
      i64_as_f64_small i hi]
  exact ⟨by rw [cmp_int_float, h1], by rw [cmp_float_int, h1]⟩

/-- Witness for the amended C3 at `i = 1`, `f = 2.0` (pattern
`1024 * 2^52`). -/
theorem claim_C3_witness :
    (1 : ℤ).natAbs ≤ 2 ^ 53 ∧ f64_is_nan (1024 * 2 ^ 52) = false ∧
      f64_is_inf (1024 * 2 ^ 52) = false ∧
      cmp (.Integer 1) (.Float (1024 * 2 ^ 52)) =
        compare ((1 : ℤ) : ℚ) (f64_val (1024 * 2 ^ 52)) ∧
      cmp (.Float (1024 * 2 ^ 52)) (.Integer 1) =
        (compare ((1 : ℤ) : ℚ) (f64_val (1024 * 2 ^ 52))).swap :=
  ⟨by decide, by decide, by decide,
    (claim_C3_amended 1 _ (by decide) (by decide) (by decide)).1,
    (claim_C3_amended 1 _ (by decide) (by decide) (by decide)).2⟩

end Erltf

namespace EdpNode

open Erltf

theorem map_lookup_insert {K V : Type} [DecidableEq K] (k : K) (v : V)
    (m : List (K × V)) : map_lookup k (map_insert k v m) = some v := by
  simp [map_insert, map_lookup]

theorem map_lookup_remove {K V : Type} [DecidableEq K] (k : K) (m : List (K × V)) :
    map_lookup k (map_remove k m) = none := by
  induction m with
  | nil => rfl
  | cons p rest ih =>
    by_cases h : p.1 = k
    · simpa [map_remove, h] using ih
    · simpa [map_remove, map_lookup, h] using ih

theorem pid_alloc_keeps (n : Node) :
    (pid_alloc n).2.connections = n.connections ∧
      (pid_alloc n).2.pending_rpcs = n.pending_rpcs ∧
      (pid_alloc n).2.next_tx = n.next_tx := by
  simp only [pid_alloc]
  split <;> exact ⟨rfl, rfl, rfl⟩

/-- Claim C7: with a connection to the remote node present,
`rpc_call_raw` registers a one-shot waiter keyed by the freshly allocated
reply pid and hands the connection a `RegSend` to the registered name
`rex` carrying exactly `{ReplyPid, {call, Module, Function, Args, user}}`. -/
theorem claim_C7_rpc_request (n : Node) (remote module function : List Char)
    (args : List OwnedTerm) (hconn : ∃ c, map_lookup remote n.connections = some c) :
    ∃ (reply : ExternalPid) (n' : Node),
      rpc_call_raw_send n remote module function args =
        (.ok ⟨reply, ⟨reply, ⟨chars_bytes "rex".data⟩,
          .Tuple [.Pid reply,
            .Tuple [.Atom ⟨chars_bytes "call".data⟩, .Atom ⟨chars_bytes module⟩,
              .Atom ⟨chars_bytes function⟩, .List args,
              .Atom ⟨chars_bytes "user".data⟩]]⟩⟩, n') ∧
      reply = (pid_alloc n).1 ∧
      map_lookup (pid_str reply) n'.pending_rpcs = some n.next_tx := by
  obtain ⟨c, hc⟩ := hconn
  obtain ⟨hcon, hpend, htx⟩ := pid_alloc_keeps n
  refine ⟨(pid_alloc n).1,
    { (pid_alloc n).2 with
        pending_rpcs := map_insert (pid_str (pid_alloc n).1)
          (pid_alloc n).2.next_tx (pid_alloc n).2.pending_rpcs,
        next_tx := (pid_alloc n).2.next_tx + 1 }, ?_, rfl, ?_⟩
  · rw [rpc_call_raw_send]
    rw [show pid_alloc n = ((pid_alloc n).1, (pid_alloc n).2) from rfl]
    simp only [hcon, hc, call_request]
  · simp only [map_lookup_insert, htx]

/-- Witness for C7: a minimal started node with one connection. -/
theorem claim_C7_witness :
    ∃ (reply : ExternalPid) (n' : Node),
      rpc_call_raw_send
          ⟨"a@b".data, [], 1, 0, 0, 0, ⟨[], []⟩, [(['r'], 0)], [], true, none,
            false, 0⟩
          ['r'] "m".data "f".data [] =
        (.ok ⟨reply, ⟨reply, ⟨chars_bytes "rex".data⟩,
          .Tuple [.Pid reply,
            .Tuple [.Atom ⟨chars_bytes "call".data⟩, .Atom ⟨chars_bytes "m".data⟩,
              .Atom ⟨chars_bytes "f".data⟩, .List [],
              .Atom ⟨chars_bytes "user".data⟩]]⟩⟩, n') ∧
      reply = (pid_alloc ⟨"a@b".data, [], 1, 0, 0, 0, ⟨[], []⟩, [(['r'], 0)], [],
        true, none, false, 0⟩).1 ∧
      map_lookup (pid_str reply) n'.pending_rpcs = some 0 :=
  claim_C7_rpc_request _ ['r'] "m".data "f".data [] ⟨0, by simp [map_lookup]⟩

/-- Claim C8: on the 10-second timeout, `rpc_call_raw` returns
`RpcTimeout` and the pending-RPC table holds no entry keyed by the reply
pid. -/
theorem claim_C8_timeout_cleanup (n : Node) (reply : ExternalPid) :
    rpc_timeout_secs = 10 ∧
      (rpc_call_raw_finish n reply .timeout).1 = .error .RpcTimeout ∧
      map_lookup (pid_str reply)
        (rpc_call_raw_finish n reply .timeout).2.pending_rpcs = none := by
  refine ⟨rfl, rfl, ?_⟩
  simp [rpc_call_raw_finish, map_lookup_remove]

/-- Claim C9: an inbound `Send` with a payload and a pid destination is
delivered to the registered process's mailbox as a `Regular` message; if
the pid is unknown to the registry but keys a pending RPC, the payload is
delivered to that waiter and the entry is removed. -/
theorem claim_C9_send_routing (registry : Registry) (pending : PendingRpcs)
    (pid : ExternalPid) (body : OwnedTerm) :
    (∀ h, registry.get pid = some h →
      route_message registry pending (.Send (.Pid pid)) (some body) =
        ⟨some (.mailbox h (.Regular none body)), pending⟩) ∧
    (registry.get pid = none → ∀ w, map_lookup (pid_str pid) pending = some w →
      route_message registry pending (.Send (.Pid pid)) (some body) =
        ⟨some (.rpc_waiter w body), map_remove (pid_str pid) pending⟩ ∧
      map_lookup (pid_str pid) (map_remove (pid_str pid) pending) = none) := by
  refine ⟨fun h hh => ?_, fun hg w hw => ⟨?_, map_lookup_remove _ _⟩⟩
  · simp [route_message, hh]
  · simp [route_message, hg, hw]

/-- Witness for C9 at a concrete registry, pending table and payload. -/
theorem claim_C9_witness :
    route_message ⟨[(⟨⟨[]⟩, 1, 2, 3⟩, 7)], []⟩ []
        (.Send (.Pid ⟨⟨[]⟩, 1, 2, 3⟩)) (some .Nil) =
      ⟨some (.mailbox 7 (.Regular none .Nil)), []⟩ ∧
    (route_message ⟨[], []⟩ [(pid_str ⟨⟨[]⟩, 1, 2, 3⟩, 5)]
        (.Send (.Pid ⟨⟨[]⟩, 1, 2, 3⟩)) (some .Nil) =
      ⟨some (.rpc_waiter 5 .Nil),
        map_remove (pid_str ⟨⟨[]⟩, 1, 2, 3⟩) [(pid_str ⟨⟨[]⟩, 1, 2, 3⟩, 5)]⟩ ∧
      map_lookup (pid_str ⟨⟨[]⟩, 1, 2, 3⟩)
        (map_remove (pid_str ⟨⟨[]⟩, 1, 2, 3⟩) [(pid_str ⟨⟨[]⟩, 1, 2, 3⟩, 5)]) =
        none) :=
  ⟨(claim_C9_send_routing _ _ _ _).1 7 (by simp [Registry.get, map_lookup]),
    (claim_C9_send_routing _ _ _ _).2 (by rfl) 5 (by simp [map_lookup])⟩

/-- Claim C10: `Node::start` is not atomic on failure — after a failed
start (no `'@'` in the name, or a failed port-mapper registration) the
node stays marked started and every further `start` call returns
`NodeAlreadyStarted`. -/
theorem claim_C10_start_not_atomic (n : Node) (port : Nat)
    (res : Except (List Char) Nat) (h0 : n.started = false)
    (hfail : split_once_at '@' n.name = none ∨ ∃ e, res = .error e) :
    (∃ msg, (start n port res).1 = .error (.EpmdRegistration msg)) ∧
      (start n port res).2.started = true ∧
      ∀ (port' : Nat) (res' : Except (List Char) Nat),
        (start (start n port res).2 port' res').1 = .error .NodeAlreadyStarted := by
  have hstarted : (start n port res).2.started = true := by
    rw [start, if_neg (by simp [h0])]
    rcases hsp : split_once_at '@' n.name with _ | p
    · simp [hsp]
    · cases res <;> simp [hsp]
  refine ⟨?_, hstarted, fun port' res' => by rw [start, if_pos hstarted]⟩
  rcases hfail with hname | ⟨e, he⟩
  · exact ⟨n.name, by rw [start, if_neg (by simp [h0])]; simp [hname]⟩
  · subst he
    rcases hsp : split_once_at '@' n.name with _ | p
    · exact ⟨n.name, by rw [start, if_neg (by simp [h0])]; simp [hsp]⟩
    · exact ⟨e, by rw [start, if_neg (by simp [h0])]; simp [hsp]⟩

/-- Witness for C10: a name without `'@'` and a successful registration
outcome still leave the node started-but-unregistered. -/
theorem claim_C10_witness :
    (∃ msg, (start ⟨"ab".data, [], 1, 0, 0, 0, ⟨[], []⟩, [], [], false, none,
        false, 0⟩ 0 (.ok 5)).1 = .error (.EpmdRegistration msg)) ∧
      (start ⟨"ab".data, [], 1, 0, 0, 0, ⟨[], []⟩, [], [], false, none,
        false, 0⟩ 0 (.ok 5)).2.started = true ∧
      ∀ (port' : Nat) (res' : Except (List Char) Nat),
        (start (start ⟨"ab".data, [], 1, 0, 0, 0, ⟨[], []⟩, [], [], false, none,
          false, 0⟩ 0 (.ok 5)).2 port' res').1 = .error .NodeAlreadyStarted :=
  claim_C10_start_not_atomic _ 0 (.ok 5) rfl (.inl (by simp [split_once_at]))

end EdpNode

namespace Erltf

theorem digit_char_spec (k : Nat) (h : k < 10) :
    (digit_char k).isDigit = true ∧ digit_char k ≠ '.' ∧ digit_char k ≠ '+' ∧
      (digit_char k).toNat - 48 = k := by
  interval_cases k <;> exact ⟨by decide, by decide, by decide, by decide⟩

theorem nat_digits_ne_nil (n : Nat) : nat_digits n ≠ [] := by
  rw [nat_digits]
  split <;> simp

theorem nat_digits_all_digits (n : Nat) :
    ∀ c ∈ nat_digits n, c.isDigit = true := by
  induction n using Nat.strong_induction_on with
  | _ n ih =>
    rw [nat_digits]
    split
    · next h => intro c hc; simp at hc; subst hc; exact (digit_char_spec n h).1
    · next h =>
      intro c hc
      rcases List.mem_append.mp hc with h1 | h1
      · exact ih (n / 10) (Nat.div_lt_self (by omega) (by omega)) c h1
      · simp at h1; subst h1
        exact (digit_char_spec (n % 10) (Nat.mod_lt _ (by omega))).1

theorem nat_digits_foldl (n : Nat) : ∀ acc : Nat,
    (nat_digits n).foldl (fun acc c => 10 * acc + (c.toNat - 48)) acc =
      acc * 10 ^ (nat_digits n).length + n := by
  induction n using Nat.strong_induction_on with
  | _ n ih =>
    intro acc
    rw [nat_digits]
    split
    · next h =>
      simp [List.foldl, (digit_char_spec n h).2.2.2]
      omega
    · next h =>
      rw [List.foldl_append, List.length_append]
      rw [ih (n / 10) (Nat.div_lt_self (by omega) (by omega)) acc]
      simp [List.foldl, (digit_char_spec (n % 10) (Nat.mod_lt _ (by omega))).2.2.2]
      ring_nf
      omega

theorem strip_plus_of_ne (c : Char) (cs : List Char) (h : c ≠ '+') :
    strip_plus (c :: cs) = c :: cs := by
  rw [strip_plus.eq_def]
  split
  · next heq => injection heq with h1 h2; exact absurd h1 h
  · rfl

theorem parse_u32_of_digits (s : List Char) (hne : s ≠ [])
    (hd : ∀ c ∈ s, c.isDigit = true) :
    parse_u32 s =
      if s.foldl (fun acc c => 10 * acc + (c.toNat - 48)) 0 < 2 ^ 32
      then some (s.foldl (fun acc c => 10 * acc + (c.toNat - 48)) 0) else none := by
  cases s with
  | nil => exact absurd rfl hne
  | cons c cs =>
    have hc : c ≠ '+' := fun h => by
      have := hd c (by simp)
      rw [h] at this
      exact absurd this (by decide)
    rw [parse_u32, strip_plus_of_ne c cs hc]
    rw [if_neg (by simp)]
    rw [if_pos (by simpa using hd)]

theorem split_dot_no_dot (s : List Char) (h : ∀ c ∈ s, c ≠ '.') :
    split_dot s = [s] := by
  induction s with
  | nil => rfl
  | cons c cs ih =>
    rw [split_dot, if_neg (h c (by simp)), ih (fun x hx => h x (by simp [hx]))]

theorem split_dot_append (xs ys : List Char) (h : ∀ c ∈ xs, c ≠ '.') :
    split_dot (xs ++ ('.' :: ys)) = xs :: split_dot ys := by
  induction xs with
  | nil => simp [split_dot]
  | cons x xs' ih =>
    rw [List.cons_append, split_dot, if_neg (h x (by simp)),
      ih (fun c hc => h c (by simp [hc]))]

theorem str_trim_wrapped (xs : List Char) :
    str_trim ('<' :: (xs ++ ['>'])) = '<' :: (xs ++ ['>']) := by
  simp [str_trim, List.dropWhile_cons,
    (by decide : Char.isWhitespace '<' = false),
    (by decide : Char.isWhitespace '>' = false)]

/-- Claim C6: parsing the `Display`-formatted string of an `ExternalPid`
with `ExternalPid::from_string(N, ...)` succeeds and returns a pid with
node `N` and the original id, serial and creation (all `u32`). -/
theorem claim_C6_pid_string_roundtrip (node : Atom) (p : ExternalPid)
    (h1 : p.id < 2 ^ 32) (h2 : p.serial < 2 ^ 32) (h3 : p.creation < 2 ^ 32) :
    from_string node (pid_display p) = .ok ⟨node, p.id, p.serial, p.creation⟩ := by
  have hparse : ∀ m : Nat, m < 2 ^ 32 → parse_u32 (nat_digits m) = some m := by
    intro m hm
    rw [parse_u32_of_digits _ (nat_digits_ne_nil _) (nat_digits_all_digits _)]
    rw [nat_digits_foldl m 0]
    simp only [Nat.zero_mul, Nat.zero_add]
    rw [if_pos hm]
  have hshape : pid_display p =
      '<' :: ((nat_digits p.id ++ ('.' :: (nat_digits p.serial ++ ('.' ::
        nat_digits p.creation)))) ++ ['>']) := by
    simp [pid_display]
  have hnodot : ∀ m : Nat, ∀ c ∈ nat_digits m, c ≠ '.' := fun m c hc he => by
    have := nat_digits_all_digits m c hc
    rw [he] at this
    exact absurd this (by decide)
  have hparts : split_dot (nat_digits p.id ++ ('.' :: (nat_digits p.serial ++
      ('.' :: nat_digits p.creation)))) =
      [nat_digits p.id, nat_digits p.serial, nat_digits p.creation] := by
    rw [split_dot_append _ _ (hnodot p.id), split_dot_append _ _ (hnodot p.serial),
      split_dot_no_dot _ (hnodot p.creation)]
  have hlast : ∀ mid : List Char,
      (('<' : Char) :: (mid ++ ['>'])).getLast? = some '>' := by
    intro mid
    rw [← List.cons_append, List.getLast?_concat]
  have hinner : ∀ mid : List Char,
      ((('<' : Char) :: (mid ++ ['>'])).drop 1).dropLast = mid := by
    intro mid
    simp
  rw [from_string, hshape]
  simp only [str_trim_wrapped, List.head?_cons, hlast, hinner, hparts]
  simp [hparse _ h1, hparse _ h2, hparse _ h3]

/-- Witness for C6 at the pid `<1.2.3>`. -/
theorem claim_C6_witness :
    from_string ⟨[]⟩ (pid_display ⟨⟨[]⟩, 1, 2, 3⟩) = .ok ⟨⟨[]⟩, 1, 2, 3⟩ :=
  claim_C6_pid_string_roundtrip ⟨[]⟩ ⟨⟨[]⟩, 1, 2, 3⟩ (by decide) (by decide)
    (by decide)

end Erltf

namespace Erltf

theorem readBE_writeBE (k : Nat) : ∀ (n : Nat) (extra : List Nat), n < 256 ^ k →
    readBE k (writeBE k n ++ extra) = some (n, extra) := by
  induction k with
  | zero =>
    intro n extra h
    have : n = 0 := by simpa using h
    subst this
    simp [writeBE, readBE]
  | succ k ih =>
    intro n extra h
    rw [writeBE, List.cons_append, readBE,
      ih (n % 256 ^ k) extra (Nat.mod_lt _ (Nat.pos_pow_of_pos _ (by omega)))]
    have hm : n / 256 ^ k * 256 ^ k + n % 256 ^ k = n := by
      rw [Nat.mul_comm]
      exact Nat.div_add_mod n (256 ^ k)
    simp [hm]

theorem writeBE_length (k : Nat) : ∀ n : Nat, (writeBE k n).length = k := by
  induction k with
  | zero => intro n; rfl
  | succ k ih => intro n; simp [writeBE, ih]

theorem takeBytes_exact (bs extra : List Nat) :
    takeBytes bs.length (bs ++ extra) = some (bs, extra) := by
  simp [takeBytes, List.take_left, List.drop_left]

theorem le_digits_val_digits (n : Nat) : le_digits_val (nat_le_digits n) = n := by
  induction n using Nat.strong_induction_on with
  | _ n ih =>
    rw [nat_le_digits]
    split
    · next h => subst h; rfl
    · next h =>
      rw [le_digits_val, ih (n / 256) (Nat.div_lt_self (by omega) (by omega))]
      omega

theorem read_ids_write_ids (ids : List Nat) (extra : List Nat)
    (h : ∀ i ∈ ids, i < 2 ^ 32) :
    read_ids ids.length (write_ids ids ++ extra) = some (ids, extra) := by
  induction ids with
  | nil => simp [write_ids, read_ids]
  | cons i is_ ih =>
    rw [List.length_cons, write_ids, read_ids, List.append_assoc,
      readBE_writeBE 4 i _ (by simpa using h i (by simp))]
    simp [ih (fun x hx => h x (by simp [hx]))]

theorem dec_atom_enc (a : Atom) (ab extra : List Nat) (h : enc_atom a = some ab) :
    dec_atom (ab ++ extra) = some (a, extra) := by
  rw [enc_atom] at h
  split at h
  · next h1 =>
    injection h with h
    subst h
    rw [List.cons_append, List.cons_append, dec_atom, takeBytes_exact]
    simp
  · split at h
    · next h2 =>
      injection h with h
      subst h
      rw [List.append_assoc, List.cons_append, dec_atom,
        readBE_writeBE 2 _ _ (by omega)]
      simp [takeBytes_exact]
    · exact absurd h (by simp)

theorem sint32_emod (i : ℤ) (h1 : -(2 ^ 31) ≤ i) (h2 : i < 2 ^ 31) :
    sint32 (i % 2 ^ 32).toNat = i := by
  rw [sint32]
  split <;> omega

theorem big_term_int (i : ℤ) (h1 : -(2 ^ 63) ≤ i) (h2 : i < 2 ^ 63) :
    big_term (if i < 0 then 1 else 0) (nat_le_digits i.natAbs) = some (.Integer i) := by
  split
  · next hneg =>
    rw [big_term, le_digits_val_digits]
    rw [if_pos (by omega)]
    have : ((i.natAbs : ℤ)) = -i := by omega
    rw [this]
    simp
  · next hpos =>
    rw [big_term, le_digits_val_digits]
    rw [if_pos (by omega)]
    have : ((i.natAbs : ℤ)) = i := by omega
    rw [this]

theorem big_term_big_pos (digits : List Nat) (h : 2 ^ 63 ≤ le_digits_val digits) :
    big_term 0 digits = some (.BigInt ⟨.Positive, digits⟩) := by
  rw [big_term, if_neg (by omega)]

theorem big_term_big_neg (digits : List Nat) (h : 2 ^ 63 < le_digits_val digits) :
    big_term 1 digits = some (.BigInt ⟨.Negative, digits⟩) := by
  rw [big_term, if_neg (by omega)]

theorem map_insert_term_append (k v : OwnedTerm) (m : List (OwnedTerm × OwnedTerm))
    (h : ∀ p ∈ m, cmp k p.1 = .gt) : map_insert_term k v m = m ++ [(k, v)] := by
  induction m with
  | nil => rfl
  | cons p rest ih =>
    rw [show p = (p.1, p.2) from rfl, map_insert_term, h p (by simp)]
    rw [ih (fun q hq => h q (by simp [hq]))]
    simp

theorem foldl_insert_sorted :
    ∀ (ps acc : List (OwnedTerm × OwnedTerm)), keys_ascend ps = true →
      (∀ p ∈ ps, ∀ q ∈ acc, cmp p.1 q.1 = .gt) →
      ps.foldl (fun m p => map_insert_term p.1 p.2 m) acc = acc ++ ps := by
  intro ps
  induction ps with
  | nil => intro acc _ _; simp
  | cons p rest ih =>
    intro acc hs hacc
    rw [keys_ascend] at hs
    simp only [Bool.and_eq_true, List.all_eq_true] at hs
    rw [List.foldl_cons]
    rw [map_insert_term_append p.1 p.2 acc (hacc p (by simp))]
    rw [ih (acc ++ [(p.1, p.2)]) hs.2 ?hq]
    · simp
    case hq =>
      intro q hq r hr
      rcases List.mem_append.mp hr with h1 | h1
      · exact hacc q (by simp [hq]) r h1
      · simp at h1
        subst h1
        have h2 := hs.1 q hq
        simp only [Bool.and_eq_true, decide_eq_true_eq] at h2
        exact h2.2

theorem map_of_pairs_sorted (ps : List (OwnedTerm × OwnedTerm))
    (hs : keys_ascend ps = true) : map_of_pairs ps = ps := by
  rw [map_of_pairs, foldl_insert_sorted ps [] hs (by simp)]
  simp

theorem dec_seq_sound (fuel : Nat)
    (IH : ∀ (t : OwnedTerm) (bs extra : List Nat), wf_term t = true →
      encodeT t = some bs → bs.length < fuel →
      decodeT fuel (bs ++ extra) = some (t, extra)) :
    ∀ (ts : List OwnedTerm) (body extra : List Nat), wf_list ts = true →
      enc_seq ts = some body → body.length < fuel →
      dec_seq fuel ts.length (body ++ extra) = some (ts, extra) := by
  intro ts
  induction ts with
  | nil =>
    intro body extra _ henc _
    rw [enc_seq] at henc
    injection henc with henc
    subst henc
    simp [dec_seq]
  | cons t ts' ih =>
    intro body extra hwf henc hlen
    rw [enc_seq] at henc
    rw [wf_list] at hwf
    simp only [Bool.and_eq_true] at hwf
    rcases he1 : encodeT t with _ | b
    · rw [he1] at henc; exact absurd henc (by simp)
    rcases he2 : enc_seq ts' with _ | bs'
    · rw [he1, he2] at henc; exact absurd henc (by simp)
    rw [he1, he2] at henc
    injection henc with henc
    subst henc
    rw [List.length_cons, List.append_assoc, dec_seq]
    rw [IH t b _ hwf.1 he1 (by simp at hlen ⊢; omega)]
    simp [ih bs' extra hwf.2 he2 (by simp at hlen ⊢; omega)]

theorem dec_pairs_sound (fuel : Nat)
    (IH : ∀ (t : OwnedTerm) (bs extra : List Nat), wf_term t = true →
      encodeT t = some bs → bs.length < fuel →
      decodeT fuel (bs ++ extra) = some (t, extra)) :
    ∀ (ps : List (OwnedTerm × OwnedTerm)) (body extra : List Nat),
      wf_pairs ps = true → enc_pairs ps = some body → body.length < fuel →
      dec_pairs fuel ps.length (body ++ extra) = some (ps, extra) := by
  intro ps
  induction ps with
  | nil =>
    intro body extra _ henc _
    rw [enc_pairs] at henc
    injection henc with henc
    subst henc
    simp [dec_pairs]
  | cons p ps' ih =>
    intro body extra hwf henc hlen
    rw [show p = (p.1, p.2) from rfl] at henc hwf ⊢
    rw [enc_pairs] at henc
    rw [wf_pairs] at hwf
    simp only [Bool.and_eq_true] at hwf
    rcases he1 : encodeT p.1 with _ | kb
    · rw [he1] at henc; exact absurd henc (by simp)
    rcases he2 : encodeT p.2 with _ | vb
    · rw [he1, he2] at henc; exact absurd henc (by simp)
    rcases he3 : enc_pairs ps' with _ | bs'
    · rw [he1, he2, he3] at henc; exact absurd henc (by simp)
    rw [he1, he2, he3] at henc
    injection henc with henc
    subst henc
    rw [List.length_cons, List.append_assoc, List.append_assoc, dec_pairs]
    rw [IH p.1 kb _ hwf.1.1 he1 (by simp at hlen ⊢; omega)]
    simp [IH p.2 vb (bs' ++ extra) hwf.1.2 he2 (by simp at hlen ⊢; omega),
      ih bs' extra hwf.2 he3 (by simp at hlen ⊢; omega)]

end Erltf

namespace Erltf

set_option maxHeartbeats 4000000 in
theorem decodeT_encodeT (fuel : Nat) :
    ∀ (t : OwnedTerm) (bs extra : List Nat), wf_term t = true →
      encodeT t = some bs → bs.length < fuel →
      decodeT fuel (bs ++ extra) = some (t, extra) := by
  induction fuel with
  | zero => intro t bs extra _ _ h; omega
  | succ fuel ih =>
    intro t bs extra hwf henc hlen
    rw [encodeT.eq_def] at henc
    rw [wf_term.eq_def] at hwf
    cases t with
    | Atom a =>
      simp only at henc
      rw [enc_atom] at henc
      split at henc
      · next h1 =>
        injection henc with henc
        subst henc
        rw [List.cons_append, List.cons_append, decodeT, dec_tag.eq_def]
        simp [takeBytes_exact]
      · split at henc
        · next h2 =>
          injection henc with henc
          subst henc
          rw [List.append_assoc, List.cons_append, decodeT, dec_tag.eq_def]
          rw [readBE_writeBE 2 _ _ (by omega)]
          simp [takeBytes_exact]
        · exact absurd henc (by simp)
    | Integer i =>
      simp only at henc
      simp only [Bool.and_eq_true, decide_eq_true_eq] at hwf
      split at henc
      · next h1 =>
        injection henc with henc
        subst henc
        have hi : ((i.toNat : ℤ)) = i := by omega
        rw [List.cons_append, List.cons_append, decodeT, dec_tag.eq_def]
        simp [hi]
      · split at henc
        · next h2 =>
          injection henc with henc
          subst henc
          rw [List.cons_append, decodeT, dec_tag.eq_def]
          simp only [reduceIte]
          rw [readBE_writeBE 4 _ _ (by omega)]
          simp only [Option.map, sint32_emod i h2.1 h2.2]
          rw [if_neg (by decide)]
        · next h1 h2 =>
          injection henc with henc
          subst henc
          rw [List.cons_append, List.cons_append, List.cons_append, decodeT, dec_tag.eq_def]
          simp only [reduceIte]
          rw [takeBytes_exact]
          simp [big_term_int i hwf.1 hwf.2]
    | Float f =>
      simp only at henc
      simp at hwf
      injection henc with henc
      subst henc
      rw [List.cons_append, decodeT, dec_tag.eq_def]
      simp only [reduceIte]
      rw [readBE_writeBE 8 f extra ((by norm_num : (2 : ℕ) ^ 64 = 256 ^ 8) ▸ hwf)]
      rfl
    | Nil =>
      simp only at henc
      injection henc with henc
      subst henc
      rw [List.cons_append, decodeT, dec_tag.eq_def]
      simp
    | String s => simp at hwf
    | InternalFun m ar u idx nf oi ou p fv => simp at hwf
    | Binary bt =>
      simp only at henc
      split at henc
      · next h32 =>
        injection henc with henc
        subst henc
        rw [List.append_assoc, List.cons_append, decodeT, dec_tag.eq_def]
        simp only [reduceIte]
        rw [readBE_writeBE 4 _ _ (by omega)]
        simp [takeBytes_exact]
      · exact absurd henc (by simp)
    | BitBinary bt bits =>
      simp only at henc
      split at henc
      · next h32 =>
        injection henc with henc
        subst henc
        rw [List.append_assoc, List.cons_append, decodeT, dec_tag.eq_def]
        simp only [reduceIte]
        rw [readBE_writeBE 4 _ _ (by omega)]
        simp [takeBytes_exact]
      · exact absurd henc (by simp)
    | Pid p =>
      simp only at henc
      simp at hwf
      rcases he : enc_atom p.node with _ | nb
      · rw [he] at henc; exact absurd henc (by simp)
      rw [he] at henc
      injection henc with henc
      subst henc
      simp only [List.append_assoc, List.cons_append]
      rw [decodeT, dec_tag.eq_def]
      simp only [reduceIte]
      rw [dec_atom_enc p.node nb _ he]
      simp [readBE_writeBE 4 p.id
          (writeBE 4 p.serial ++ (writeBE 4 p.creation ++ extra)) (by omega),
        readBE_writeBE 4 p.serial (writeBE 4 p.creation ++ extra) (by omega),
        readBE_writeBE 4 p.creation extra (by omega)]
    | Port p =>
      simp only at henc
      simp at hwf
      rcases he : enc_atom p.node with _ | nb
      · rw [he] at henc; exact absurd henc (by simp)
      rw [he] at henc
      injection henc with henc
      subst henc
      simp only [List.append_assoc, List.cons_append]
      rw [decodeT, dec_tag.eq_def]
      simp only [reduceIte]
      rw [dec_atom_enc p.node nb _ he]
      simp [readBE_writeBE 8 p.id (writeBE 4 p.creation ++ extra) (by omega),
        readBE_writeBE 4 p.creation extra (by omega)]
    | Reference r =>
      simp only at henc
      simp at hwf
      split at henc
      · next h16 =>
        rcases he : enc_atom r.node with _ | nb
        · rw [he] at henc; exact absurd henc (by simp)
        rw [he] at henc
        injection henc with henc
        subst henc
        simp only [List.append_assoc, List.cons_append]
        rw [decodeT, dec_tag.eq_def]
        simp only [reduceIte]
        rw [readBE_writeBE 2 r.ids.length
          (nb ++ (writeBE 4 r.creation ++ (write_ids r.ids ++ extra))) (by omega)]
        rw [show (some (r.ids.length,
            nb ++ (writeBE 4 r.creation ++ (write_ids r.ids ++ extra)))) =
          some (r.ids.length,
            nb ++ (writeBE 4 r.creation ++ (write_ids r.ids ++ extra))) from rfl]
        simp only [dec_atom_enc r.node nb _ he]
        simp [readBE_writeBE 4 r.creation (write_ids r.ids ++ extra) (by omega),
          read_ids_write_ids r.ids extra
            (fun i himem => by have := hwf.2 i himem; omega)]
      · exact absurd henc (by simp)
    | ExternalFun f =>
      simp only at henc
      rcases he1 : enc_atom f.module with _ | mb
      · rw [he1] at henc; exact absurd henc (by simp)
      rcases he2 : enc_atom f.function with _ | fb
      · rw [he1, he2] at henc; exact absurd henc (by simp)
      rw [he1, he2] at henc
      simp only at henc
      split at henc
      · next har =>
        injection henc with henc
        subst henc
        simp only [List.append_assoc, List.cons_append]
        rw [decodeT, dec_tag.eq_def]
        simp only [reduceIte]
        rw [dec_atom_enc f.module mb _ he1]
        simp [dec_atom_enc f.function fb
          (97 :: f.arity :: extra) he2]
      · exact absurd henc (by simp)
    | BigInt b =>
      obtain ⟨sg, ds⟩ := b
      simp only at henc hwf
      cases sg with
      | Positive =>
        simp only [decide_eq_true_eq, sign_byte] at hwf henc
        split at henc
        · next h255 =>
          injection henc with henc
          subst henc
          simp only [List.append_assoc, List.cons_append]
          rw [decodeT, dec_tag.eq_def]
          simp only [reduceIte]
          rw [takeBytes_exact]
          simp [big_term_big_pos ds hwf]
        · split at henc
          · next h32 =>
            injection henc with henc
            subst henc
            simp only [List.append_assoc, List.cons_append]
            rw [decodeT, dec_tag.eq_def]
            simp only [reduceIte]
            simp [readBE_writeBE 4 ds.length (0 :: (ds ++ extra)) (by omega),
              takeBytes_exact, big_term_big_pos ds hwf]
          · exact absurd henc (by simp)
      | Negative =>
        simp only [decide_eq_true_eq, sign_byte] at hwf henc
        split at henc
        · next h255 =>
          injection henc with henc
          subst henc
          simp only [List.append_assoc, List.cons_append]
          rw [decodeT, dec_tag.eq_def]
          simp only [reduceIte]
          rw [takeBytes_exact]
          simp [big_term_big_neg ds hwf]
        · split at henc
          · next h32 =>
            injection henc with henc
            subst henc
            simp only [List.append_assoc, List.cons_append]
            rw [decodeT, dec_tag.eq_def]
            simp only [reduceIte]
            simp [readBE_writeBE 4 ds.length (1 :: (ds ++ extra)) (by omega),
              takeBytes_exact, big_term_big_neg ds hwf]
          · exact absurd henc (by simp)
    | Tuple es =>
      simp only at henc hwf
      split at henc
      · next h255 =>
        rcases he : enc_seq es with _ | body
        · rw [he] at henc; exact absurd henc (by simp)
        rw [he] at henc
        injection henc with henc
        subst henc
        simp only [List.append_assoc, List.cons_append]
        rw [decodeT, dec_tag.eq_def]
        simp only [reduceIte]
        simp [dec_seq_sound fuel ih es body extra hwf he
          (by simp at hlen; omega)]
      · split at henc
        · next h32 =>
          rcases he : enc_seq es with _ | body
          · rw [he] at henc; exact absurd henc (by simp)
          rw [he] at henc
          injection henc with henc
          subst henc
          simp only [List.append_assoc, List.cons_append]
          rw [decodeT, dec_tag.eq_def]
          simp only [reduceIte]
          simp [readBE_writeBE 4 es.length (body ++ extra) (by omega),
            dec_seq_sound fuel ih es body extra hwf he
              (by simp [writeBE_length] at hlen; omega)]
        · exact absurd henc (by simp)
    | Map m =>
      simp only at henc hwf
      simp only [Bool.and_eq_true] at hwf
      split at henc
      · next h32 =>
        rcases he : enc_pairs m with _ | body
        · rw [he] at henc; exact absurd henc (by simp)
        rw [he] at henc
        injection henc with henc
        subst henc
        simp only [List.append_assoc, List.cons_append]
        rw [decodeT, dec_tag.eq_def]
        simp only [reduceIte]
        simp [readBE_writeBE 4 m.length (body ++ extra) (by omega),
          dec_pairs_sound fuel ih m body extra hwf.1 he
            (by simp [writeBE_length] at hlen; omega),
          map_of_pairs_sorted m hwf.2]
      · exact absurd henc (by simp)
    | List es =>
      simp only at henc hwf
      split at henc
      · next h32 =>
        rcases he : enc_seq es with _ | body
        · rw [he] at henc; exact absurd henc (by simp)
        rw [he] at henc
        injection henc with henc
        subst henc
        obtain ⟨f2, rfl⟩ : ∃ f2, fuel = f2 + 1 :=
          ⟨fuel - 1, by simp [writeBE_length] at hlen; omega⟩
        have hnil : decodeT (f2 + 1) (106 :: extra) = some (.Nil, extra) := by
          rw [decodeT, dec_tag.eq_def]
          simp
        simp only [List.append_assoc, List.cons_append, List.nil_append]
        rw [decodeT, dec_tag.eq_def]
        simp only [reduceIte]
        simp [readBE_writeBE 4 es.length (body ++ (106 :: extra)) (by omega),
          dec_seq_sound (f2 + 1) ih es body (106 :: extra) hwf he
            (by simp [writeBE_length] at hlen; omega),
          hnil]
      · exact absurd henc (by simp)
    | ImproperList es tl =>
      simp only at henc hwf
      simp only [Bool.and_eq_true] at hwf
      split at henc
      · next h32 =>
        rcases he : enc_seq es with _ | body
        · rw [he] at henc; exact absurd henc (by simp)
        rcases ht : encodeT tl with _ | tb
        · rw [he, ht] at henc; exact absurd henc (by simp)
        rw [he, ht] at henc
        simp only at henc
        injection henc with henc
        subst henc
        have htl : decodeT fuel (tb ++ extra) = some (tl, extra) :=
          ih tl tb extra hwf.1.2 ht (by simp [writeBE_length] at hlen; omega)
        simp only [List.append_assoc, List.cons_append]
        rw [decodeT, dec_tag.eq_def]
        simp only [reduceIte]
        simp [readBE_writeBE 4 es.length (body ++ (tb ++ extra)) (by omega),
          dec_seq_sound fuel ih es body (tb ++ extra) hwf.1.1 he
            (by simp [writeBE_length] at hlen; omega),
          htl]
        cases tl <;> simp_all
      · exact absurd henc (by simp)

end Erltf

namespace Erltf

/-- C1 (counterexample): the spec's unconditional round-trip fails on a
BigInt whose value fits in an i64: the decoder canonicalises the SMALL_BIG
payload back to the Integer variant, which the derived PartialEq
distinguishes from the original BigInt term. -/
theorem claim_C1_counterexample :
    encode (.BigInt ⟨.Positive, [5]⟩) = some [131, 110, 1, 0, 5] ∧
    decode [131, 110, 1, 0, 5] = some (.Integer 5) ∧
    peq (.Integer 5) (.BigInt ⟨.Positive, [5]⟩) = false := by
  refine ⟨?_, ?_, ?_⟩
  · simp [encode, encodeT.eq_def, sign_byte]
  · simp [decode, decodeT.eq_def, dec_tag.eq_def, takeBytes, big_term,
      le_digits_val]
  · rw [peq.eq_def]

/-- C1 (amended): for every well-formed term t — built from the codec's
native variants (no String, no InternalFun), with Integer in i64 range,
BigInt values outside the i64 range, representation fields within their
wire-format bounds, improper-list tails not Nil, and map keys strictly
ascending in the canonical order — decoding the result of encoding t
yields exactly t. -/
theorem claim_C1_amended (t : OwnedTerm) (bs : List Nat)
    (hwf : wf_term t = true) (henc : encode t = some bs) :
    decode bs = some t := by
  rcases he : encodeT t with _ | eb
  · rw [encode, he] at henc
    exact absurd henc (by simp)
  · rw [encode, he] at henc
    simp only [Option.map] at henc
    injection henc with henc
    subst henc
    rw [decode]
    have h := decodeT_encodeT (eb.length + 1) t eb [] hwf he (by omega)
    rw [List.append_nil] at h
    rw [h]
    rfl

/-- C1 witness: the tuple {5, []} is well-formed, encodes to the expected
bytes, and decodes back to itself. -/
theorem claim_C1_witness :
    wf_term (.Tuple [.Integer 5, .Nil]) = true ∧
    encode (.Tuple [.Integer 5, .Nil]) = some [131, 104, 2, 97, 5, 106] ∧
    decode [131, 104, 2, 97, 5, 106] = some (.Tuple [.Integer 5, .Nil]) := by
  have h1 : wf_term (OwnedTerm.Tuple [OwnedTerm.Integer 5, OwnedTerm.Nil]) = true := by
    simp [wf_term.eq_def, wf_list.eq_def]
  have h2 : encode (OwnedTerm.Tuple [OwnedTerm.Integer 5, OwnedTerm.Nil]) =
      some [131, 104, 2, 97, 5, 106] := by
    simp [encode, encodeT.eq_def, enc_seq.eq_def]
  exact ⟨h1, h2, claim_C1_amended _ _ h1 h2⟩

end Erltf
